import Mathlib

/-!
A verification development for the LocalStack S3 provider
(`localstack-core/localstack/services/s3/provider.py`).

Object keys, etags and header values are modelled as `List Char` with the
lexicographic order (Python string comparison); timestamps as `Nat`
(seconds); header parameters as `Option` values (an absent or empty header
is `none`, matching Python truthiness checks on header strings).
-/

set_option maxHeartbeats 1000000
set_option synthInstance.maxHeartbeats 400000

/-- An S3 object key / etag / header value: a string, modelled as a list of
characters ordered lexicographically like Python `str` comparison. -/
abbrev Key := List Char

/-- The canonical S3 error codes raised by the provider paths modelled here. -/
inductive S3Error where
  | preconditionFailed
  | noSuchKey
  | conditionalRequestConflict
  | notImplementedError
  | invalidArgument
  | invalidRequest
  | invalidPartOrder
  deriving DecidableEq, Repr

/-- A live version stored in a bucket's `VersionedKeyStore`: either an object
(with etag and last-modified timestamp) or a delete marker.  Mirrors the
`S3Object` / `S3DeleteMarker` duck-typed pair of `models.py`. -/
inductive ObjVersion where
  | obj (etag : Key) (lastModified : Nat)
  | deleteMarker
  deriving DecidableEq, Repr

/-- Minimal bucket model: the association of keys to their current version.
Modelled from the spec: `models.py` is not part of the sources; the spec says
`get(key)` returns the current version of the key, behaving as a flat
key-to-object map. -/
structure S3BucketM where
  objects : List (Key × ObjVersion)
  deriving DecidableEq, Repr

/-- Modelled from the spec: `VersionedKeyStore.get(key)` returns the current
version for `key`, or nothing (`models.py` is not under the sources). -/
def S3BucketM.getObject (b : S3BucketM) (key : Key) : Option ObjVersion :=
  (b.objects.find? (fun kv => kv.1 = key)).map (fun kv => kv.2)

/-- `provider.py` line 4654: `object_exists_for_precondition_write` — a live
current version exists for the key and it is not a delete marker. -/
def object_exists_for_precondition_write (b : S3BucketM) (key : Key) : Bool :=
  match b.getObject key with
  | some (.obj _ _) => true
  | some .deleteMarker => false
  | none => false

/-- Python `str.strip('"')`: remove every leading and trailing `"` character. -/
def stripQuotes (s : Key) : Key :=
  ((s.dropWhile (fun c => c = '"')).reverse.dropWhile (fun c => c = '"')).reverse

/-- The literal header value `*`. -/
def starHeader : Key := ['*']

/-- `provider.py` line 4658: `verify_object_equality_precondition_write`.
`initiated` is the multipart creation timestamp (passed only by
`complete_multipart_upload`). -/
def verify_object_equality_precondition_write (b : S3BucketM) (key : Key)
    (etag : Key) (initiated : Option Nat) : Except S3Error Unit :=
  match b.getObject key with
  | none => .error .noSuchKey
  | some .deleteMarker => .error .noSuchKey
  | some (.obj existingEtag lastModified) =>
    if existingEtag ≠ stripQuotes etag then .error .preconditionFailed
    else
      match initiated with
      | some t =>
        if t < lastModified then .error .conditionalRequestConflict else .ok ()
      | none => .ok ()

/-- The conditional-write logic of `put_object` (`provider.py` lines 701-715
and 804-815): the `NotImplemented` rejections for unsupported header
combinations, then — inside the storage writer guard — the
`If-None-Match` / `If-Match` precondition checks.  `.ok ()` means the write
proceeds to commit the object. -/
def putObjectConditionalWrite (b : S3BucketM) (key : Key)
    (ifMatch ifNoneMatch : Option Key) : Except S3Error Unit :=
  match ifNoneMatch, ifMatch with
  | some _, some _ => .error .notImplementedError
  | some inm, none =>
    if inm ≠ starHeader then .error .notImplementedError
    else if object_exists_for_precondition_write b key then
      .error .preconditionFailed
    else .ok ()
  | none, some im =>
    if im = starHeader then .error .notImplementedError
    else verify_object_equality_precondition_write b key im none
  | none, none => .ok ()

/-- The conditional-write logic of `complete_multipart_upload`
(`provider.py` lines 2531-2566): `precondition` is the snapshot taken at
`create_multipart_upload` of whether a live object existed for the key, and
`initiated` is the multipart creation timestamp. -/
def completeMultipartConditionalWrite (b : S3BucketM) (key : Key)
    (precondition : Bool) (initiated : Nat)
    (ifMatch ifNoneMatch : Option Key) : Except S3Error Unit :=
  match ifNoneMatch, ifMatch with
  | some _, some _ => .error .notImplementedError
  | some inm, none =>
    if inm ≠ starHeader then .error .notImplementedError
    else if object_exists_for_precondition_write b key then
      .error .preconditionFailed
    else if precondition then .error .conditionalRequestConflict
    else .ok ()
  | none, some im =>
    if im = starHeader then .error .notImplementedError
    else verify_object_equality_precondition_write b key im (some initiated)
  | none, none => .ok ()

/-- C1 as stated is false for `complete_multipart_upload`: with
`If-None-Match: *`, no live object for the key, but a live object having
existed when the multipart was created (`precondition` snapshot true), the
code raises `ConditionalRequestConflict` instead of succeeding. -/
theorem C1_counterexample :
    completeMultipartConditionalWrite ⟨[]⟩ ['k'] true 0 none (some ['*'])
      = .error .conditionalRequestConflict ∧
    completeMultipartConditionalWrite ⟨[]⟩ ['k'] true 0 none (some ['*'])
      ≠ .ok () := by
  constructor
  · rfl
  · simp [completeMultipartConditionalWrite, starHeader,
      object_exists_for_precondition_write, S3BucketM.getObject]

/-- C1 (amended): with `If-None-Match: *` (and no `If-Match`), both
`put_object` and `complete_multipart_upload` fail with `PreconditionFailed`
iff a live non-delete-marker object currently exists for the key.  When no
live object exists, `put_object` succeeds, while
`complete_multipart_upload` succeeds only when its `precondition` snapshot
(a live object existed at multipart creation) is false; otherwise it fails
with `ConditionalRequestConflict`. -/
theorem C1_if_none_match_star (b : S3BucketM) (key : Key)
    (precondition : Bool) (initiated : Nat) :
    (putObjectConditionalWrite b key none (some starHeader)
        = .error .preconditionFailed
      ↔ object_exists_for_precondition_write b key = true) ∧
    (completeMultipartConditionalWrite b key precondition initiated none (some starHeader)
        = .error .preconditionFailed
      ↔ object_exists_for_precondition_write b key = true) ∧
    (object_exists_for_precondition_write b key = false →
      putObjectConditionalWrite b key none (some starHeader) = .ok ()) ∧
    (object_exists_for_precondition_write b key = false →
      completeMultipartConditionalWrite b key precondition initiated none (some starHeader)
        = (if precondition then .error .conditionalRequestConflict else .ok ())) := by
  refine ⟨?_, ?_, ?_, ?_⟩ <;>
    simp only [putObjectConditionalWrite, completeMultipartConditionalWrite] <;>
    cases h : object_exists_for_precondition_write b key <;>
    cases precondition <;> simp [starHeader]

theorem C1_if_none_match_star_witness :
    (putObjectConditionalWrite ⟨[(['k'], .obj ['e'] 5)]⟩ ['k'] none (some starHeader)
        = .error .preconditionFailed
      ↔ object_exists_for_precondition_write ⟨[(['k'], .obj ['e'] 5)]⟩ ['k'] = true) ∧
    (completeMultipartConditionalWrite ⟨[(['k'], .obj ['e'] 5)]⟩ ['k'] false 0 none
        (some starHeader) = .error .preconditionFailed
      ↔ object_exists_for_precondition_write ⟨[(['k'], .obj ['e'] 5)]⟩ ['k'] = true) ∧
    (object_exists_for_precondition_write ⟨[(['k'], .obj ['e'] 5)]⟩ ['k'] = false →
      putObjectConditionalWrite ⟨[(['k'], .obj ['e'] 5)]⟩ ['k'] none (some starHeader)
        = .ok ()) ∧
    (object_exists_for_precondition_write ⟨[(['k'], .obj ['e'] 5)]⟩ ['k'] = false →
      completeMultipartConditionalWrite ⟨[(['k'], .obj ['e'] 5)]⟩ ['k'] false 0 none
        (some starHeader)
        = (if false then .error .conditionalRequestConflict else .ok ())) :=
  C1_if_none_match_star ⟨[(['k'], .obj ['e'] 5)]⟩ ['k'] false 0

/-- C2: writes carrying `If-Match` with an etag value (not `*`): if no live
non-delete-marker object exists the operation fails with `NoSuchKey`; if the
current object's etag differs from the header value after stripping quotes,
it fails with `PreconditionFailed`; and for `complete_multipart_upload`,
when the etag matches, it fails with `ConditionalRequestConflict` exactly
when the current object's `last_modified` is after the multipart's
`initiated` timestamp (otherwise both operations succeed). -/
theorem C2_if_match_etag (b : S3BucketM) (key im : Key)
    (initiated : Nat) (hstar : im ≠ starHeader) :
    ((b.getObject key = none ∨ b.getObject key = some .deleteMarker) →
      putObjectConditionalWrite b key (some im) none = .error .noSuchKey ∧
      completeMultipartConditionalWrite b key false initiated (some im) none
        = .error .noSuchKey) ∧
    (∀ etag lm, b.getObject key = some (.obj etag lm) → etag ≠ stripQuotes im →
      putObjectConditionalWrite b key (some im) none = .error .preconditionFailed ∧
      completeMultipartConditionalWrite b key false initiated (some im) none
        = .error .preconditionFailed) ∧
    (∀ etag lm, b.getObject key = some (.obj etag lm) → etag = stripQuotes im →
      putObjectConditionalWrite b key (some im) none = .ok () ∧
      completeMultipartConditionalWrite b key false initiated (some im) none
        = (if initiated < lm then .error .conditionalRequestConflict else .ok ())) := by
  refine ⟨?_, ?_, ?_⟩
  · rintro (h | h) <;>
      simp [putObjectConditionalWrite, completeMultipartConditionalWrite,
        verify_object_equality_precondition_write, h, hstar]
  · intro etag lm h hne
    simp [putObjectConditionalWrite, completeMultipartConditionalWrite,
      verify_object_equality_precondition_write, h, hstar, hne]
  · intro etag lm h heq
    simp [putObjectConditionalWrite, completeMultipartConditionalWrite,
      verify_object_equality_precondition_write, h, hstar, heq]

theorem C2_if_match_etag_witness :
    ['e'] ≠ starHeader ∧
    ((S3BucketM.getObject ⟨[]⟩ ['k'] = none ∨
        S3BucketM.getObject ⟨[]⟩ ['k'] = some .deleteMarker) →
      putObjectConditionalWrite ⟨[]⟩ ['k'] (some ['e']) none = .error .noSuchKey ∧
      completeMultipartConditionalWrite ⟨[]⟩ ['k'] false 3 (some ['e']) none
        = .error .noSuchKey) :=
  ⟨by decide, (C2_if_match_etag ⟨[]⟩ ['k'] ['e'] 3 (by decide)).1⟩

/-- C6: for both `put_object` and `complete_multipart_upload`, supplying both
`If-Match` and `If-None-Match`, or an `If-None-Match` value other than `*`,
or an `If-Match` value equal to `*`, is rejected with `NotImplemented`.
In the source these rejections happen before any bytes are written (in
`put_object` before the storage backend is opened, lines 701-715; in
`complete_multipart_upload` before the parts are assembled, lines
2531-2563). -/
theorem C6_not_implemented_rejections (b : S3BucketM) (key : Key)
    (precondition : Bool) (initiated : Nat) :
    (∀ im inm,
      putObjectConditionalWrite b key (some im) (some inm)
        = .error .notImplementedError ∧
      completeMultipartConditionalWrite b key precondition initiated (some im) (some inm)
        = .error .notImplementedError) ∧
    (∀ inm, inm ≠ starHeader →
      putObjectConditionalWrite b key none (some inm) = .error .notImplementedError ∧
      completeMultipartConditionalWrite b key precondition initiated none (some inm)
        = .error .notImplementedError) ∧
    (putObjectConditionalWrite b key (some starHeader) none
        = .error .notImplementedError ∧
      completeMultipartConditionalWrite b key precondition initiated (some starHeader) none
        = .error .notImplementedError) := by
  refine ⟨fun im inm => ⟨rfl, rfl⟩, fun inm h => ?_, ?_⟩
  · simp [putObjectConditionalWrite, completeMultipartConditionalWrite, h]
  · simp [putObjectConditionalWrite, completeMultipartConditionalWrite]

theorem C6_not_implemented_rejections_witness :
    putObjectConditionalWrite ⟨[]⟩ ['k'] (some ['a']) (some ['b'])
        = .error .notImplementedError ∧
    completeMultipartConditionalWrite ⟨[]⟩ ['k'] false 0 (some ['a']) (some ['b'])
        = .error .notImplementedError :=
  (C6_not_implemented_rejections ⟨[]⟩ ['k'] false 0).1 ['a'] ['b']

/-- `provider.py` lines 2568-2580: `complete_multipart_upload`'s validation of
the supplied parts list — empty list rejected, then
`sorted(parts_numbers) != parts_numbers` raises `InvalidPartOrder`. -/
def complete_multipart_parts_check (parts_numbers : List Nat) : Except S3Error Unit :=
  if parts_numbers = [] then .error .invalidRequest
  else if parts_numbers.mergeSort ≠ parts_numbers then .error .invalidPartOrder
  else .ok ()

/-- Python `sorted(l) == l` holds exactly when `l` is non-decreasing. -/
theorem mergeSort_self_iff_sorted (l : List Nat) :
    l.mergeSort = l ↔ l.Sorted (· ≤ ·) := by
  constructor
  · intro h
    have hs := List.sorted_mergeSort' l
    rwa [h] at hs
  · exact List.mergeSort_eq_self

/-- C3 as stated is false: the code compares the parts list against its
(stable, non-strict) sort, so duplicate part numbers such as `[1, 1]` — which
are not strictly ascending — pass the check without `InvalidPartOrder`. -/
theorem C3_counterexample :
    complete_multipart_parts_check [1, 1] = .ok () ∧
    ¬ List.Pairwise (· < ·) [1, 1] := by
  constructor
  · have h : List.mergeSort [1, 1] = [1, 1] :=
      (mergeSort_self_iff_sorted [1, 1]).mpr (by decide)
    simp [complete_multipart_parts_check, h]
  · decide

/-- C3 (amended): `complete_multipart_upload` fails (`InvalidRequest`) when
the supplied parts list is empty, and fails with `InvalidPartOrder` exactly
when the part numbers are not in non-decreasing order; in particular every
non-empty, strictly ascending parts list passes without `InvalidPartOrder`
(but so do lists with duplicated part numbers). -/
theorem C3_part_order_validation (parts_numbers : List Nat) :
    (parts_numbers = [] →
      complete_multipart_parts_check parts_numbers = .error .invalidRequest) ∧
    (parts_numbers ≠ [] →
      (complete_multipart_parts_check parts_numbers = .error .invalidPartOrder
        ↔ ¬ parts_numbers.Sorted (· ≤ ·))) ∧
    (parts_numbers ≠ [] → List.Pairwise (· < ·) parts_numbers →
      complete_multipart_parts_check parts_numbers = .ok ()) := by
  refine ⟨fun h => by simp [complete_multipart_parts_check, h], fun h => ?_, fun h hp => ?_⟩
  · rw [complete_multipart_parts_check, if_neg h]
    rcases Decidable.em (parts_numbers.Sorted (· ≤ ·)) with hs | hs
    · rw [if_neg (by simp [(mergeSort_self_iff_sorted parts_numbers).mpr hs])]
      simp [hs]
    · rw [if_pos (by simp only [ne_eq, mergeSort_self_iff_sorted]; exact hs)]
      simp [hs]
  · have hs : parts_numbers.Sorted (· ≤ ·) := hp.imp le_of_lt
    rw [complete_multipart_parts_check, if_neg h,
      if_neg (by simp [(mergeSort_self_iff_sorted parts_numbers).mpr hs])]

theorem C3_part_order_validation_witness :
    ([1, 2, 3] : List Nat) ≠ [] ∧
    complete_multipart_parts_check [1, 2, 3] = .ok () :=
  ⟨by decide, (C3_part_order_validation [1, 2, 3]).2.2 (by decide) (by decide)⟩

/-- The declared checksum algorithms (`provider.py` `CHECKSUM_ALGORITHMS`). -/
inductive ChecksumAlgo where
  | crc32 | crc32c | crc64nvme | sha1 | sha256
  deriving DecidableEq, Repr

/-- Checksum types. -/
inductive ChecksumKind where
  | composite | fullObject
  deriving DecidableEq, Repr

/-- Python `checksum_algorithm.upper().startswith("SHA")`. -/
def ChecksumAlgo.isSHA : ChecksumAlgo → Bool
  | .sha1 => true
  | .sha256 => true
  | _ => false

/-- `provider.py` lines 2150-2172: `create_multipart_upload`'s checksum-type
defaulting and validation.  Returns the effective checksum type. -/
def create_multipart_checksum (checksum_algorithm : Option ChecksumAlgo)
    (checksum_type : Option ChecksumKind) : Except S3Error (Option ChecksumKind) :=
  let step1 : Except S3Error (Option ChecksumKind) :=
    if checksum_type = none ∧ checksum_algorithm ≠ none then
      .ok (some (if checksum_algorithm = some .crc64nvme then .fullObject else .composite))
    else if checksum_type ≠ none ∧ checksum_algorithm = none then
      .error .invalidRequest
    else .ok checksum_type
  match step1 with
  | .error e => .error e
  | .ok ct =>
    if ct = some .composite ∧ checksum_algorithm = some .crc64nvme then
      .error .invalidRequest
    else if ct = some .fullObject ∧
        (checksum_algorithm.map ChecksumAlgo.isSHA) = some true then
      .error .invalidRequest
    else .ok ct

/-- C7: `create_multipart_upload` defaults a missing checksum type to
`FULL_OBJECT` for `CRC64NVME` and to `COMPOSITE` for every other declared
algorithm, and rejects with `InvalidRequest` the explicit combinations
`COMPOSITE + CRC64NVME`, `FULL_OBJECT + SHA1` and `FULL_OBJECT + SHA256`. -/
theorem C7_checksum_type_defaulting :
    (∀ algo : ChecksumAlgo,
      create_multipart_checksum (some algo) none
        = .ok (some (if algo = .crc64nvme then .fullObject else .composite))) ∧
    create_multipart_checksum (some .crc64nvme) (some .composite)
      = .error .invalidRequest ∧
    create_multipart_checksum (some .sha1) (some .fullObject)
      = .error .invalidRequest ∧
    create_multipart_checksum (some .sha256) (some .fullObject)
      = .error .invalidRequest := by
  refine ⟨fun algo => ?_, rfl, rfl, rfl⟩
  cases algo <;> rfl

/-- Python `str.lower()` on a key. -/
def toLowerKey (s : Key) : Key := s.map Char.toLower

/-- `provider.py` line 4437: `generate_version_id`.  `fresh` stands for the
URL-safe token newly generated by `generate_safe_version_id` for this write
(the generator lives in `utils.py`; per the spec it returns an opaque
URL-safe random token of fixed length). -/
def generate_version_id (fresh : Key) (bucket_versioning_status : Option Key) :
    Option Key :=
  match bucket_versioning_status with
  | none => none
  | some s =>
    if s = [] then none
    else if toLowerKey s = ['e', 'n', 'a', 'b', 'l', 'e', 'd'] then some fresh
    else some ['n', 'u', 'l', 'l']

/-- `provider.py` lines 857-858: the `PutObject` response carries a
`VersionId` only when the bucket's versioning status is `Enabled`. -/
def putObjectResponseVersionId (bucket_versioning_status : Option Key)
    (version_id : Option Key) : Option Key :=
  if bucket_versioning_status = some ['E', 'n', 'a', 'b', 'l', 'e', 'd'] then
    version_id
  else none

/-- C8: a successful `PutObject` commits no `version_id` (and echoes no
`VersionId` in the response) when versioning is unset, commits the literal
`"null"` when versioning is `Suspended`, and commits the freshly generated
URL-safe token when versioning is `Enabled` (in which case the response
echoes it). -/
theorem C8_version_id_generation (fresh : Key) :
    generate_version_id fresh none = none ∧
    putObjectResponseVersionId none (generate_version_id fresh none) = none ∧
    generate_version_id fresh (some ['S', 'u', 's', 'p', 'e', 'n', 'd', 'e', 'd'])
      = some ['n', 'u', 'l', 'l'] ∧
    generate_version_id fresh (some ['E', 'n', 'a', 'b', 'l', 'e', 'd']) = some fresh ∧
    putObjectResponseVersionId (some ['E', 'n', 'a', 'b', 'l', 'e', 'd'])
      (generate_version_id fresh (some ['E', 'n', 'a', 'b', 'l', 'e', 'd'])) = some fresh := by
  refine ⟨rfl, rfl, ?_, ?_, ?_⟩ <;>
    simp [generate_version_id, toLowerKey, putObjectResponseVersionId]

/-- The (empty) `DeleteObjectOutput` returned by the unversioned branch of
`delete_object`. -/
structure DeleteObjectOut where
  versionId : Option Key
  deleteMarker : Bool
  deriving DecidableEq, Repr

/-- `provider.py` lines 1191-1206: the unversioned-bucket branch of
`delete_object` (entered when `versioning_status` is unset and the earlier
bypass-governance validation passed).  Returns the new object index and the
response.  `objects.pop(key, None)` removes every entry for `key`. -/
def delete_object_unversioned (objects : List (Key × ObjVersion)) (key : Key)
    (version_id : Option Key) :
    Except S3Error (List (Key × ObjVersion) × DeleteObjectOut) :=
  match version_id with
  | some v =>
    if v ≠ [] ∧ v ≠ ['n', 'u', 'l', 'l'] then .error .invalidArgument
    else .ok (objects.filter (fun kv => kv.1 ≠ key), ⟨none, false⟩)
  | none => .ok (objects.filter (fun kv => kv.1 ≠ key), ⟨none, false⟩)

/-- C10: on an unversioned bucket, `delete_object` with `version_id = "null"`
behaves exactly as a delete with no `version_id`; every other non-empty
`version_id` raises `InvalidArgument`; and deleting a key that is not
present succeeds with an empty output and leaves the object index
unchanged. -/
theorem C10_delete_unversioned (objects : List (Key × ObjVersion)) (key : Key) :
    delete_object_unversioned objects key (some ['n', 'u', 'l', 'l'])
      = delete_object_unversioned objects key none ∧
    (∀ v : Key, v ≠ [] → v ≠ ['n', 'u', 'l', 'l'] →
      delete_object_unversioned objects key (some v) = .error .invalidArgument) ∧
    ((∀ kv ∈ objects, kv.1 ≠ key) →
      delete_object_unversioned objects key none = .ok (objects, ⟨none, false⟩)) := by
  refine ⟨by simp [delete_object_unversioned], fun v h1 h2 => ?_, fun h => ?_⟩
  · simp [delete_object_unversioned, h1, h2]
  · have : objects.filter (fun kv => kv.1 ≠ key) = objects :=
      List.filter_eq_self.mpr (fun kv hkv => by simpa using h kv hkv)
    simp only [delete_object_unversioned, this]

theorem C10_delete_unversioned_witness :
    (∀ kv ∈ ([(['a'], ObjVersion.deleteMarker)] : List (Key × ObjVersion)),
        kv.1 ≠ ['k']) →
    delete_object_unversioned [(['a'], ObjVersion.deleteMarker)] ['k'] none
      = .ok ([(['a'], ObjVersion.deleteMarker)], ⟨none, false⟩) :=
  (C10_delete_unversioned [(['a'], ObjVersion.deleteMarker)] ['k']).2.2

/-- Python `str.removeprefix`: drop `p` from the front of `s` when `p` is a
prefix of `s`, otherwise return `s` unchanged. -/
def removePfx (p s : Key) : Key :=
  if p <+: s then s.drop p.length else s

/-- Python `d in s` / `s.partition(d)` combined: the part of `s` before the
first occurrence of `d` and the part after it, or `none` when `d` does not
occur in `s`. -/
def partitionFirst (d : Key) : Key → Option (Key × Key)
  | [] => if d = [] then some ([], []) else none
  | c :: s' =>
    if d <+: (c :: s') then some ([], (c :: s').drop d.length)
    else (partitionFirst d s').map (fun pr => (c :: pr.1, pr.2))

/-- The listing loops' common-prefix computation (`provider.py` lines
1637-1640 and 1763-1766): when a delimiter is set and occurs in the key
with the prefix removed, the common prefix is
`prefix + <part up to first delimiter> + delimiter`. -/
def computeGroup (pfx delim k : Key) : Option Key :=
  if delim = [] then none
  else (partitionFirst delim (removePfx pfx k)).map (fun pr => pfx ++ pr.1 ++ delim)

/-- One listing emission: either an object entry (goes to `Contents`) or a
common-prefix entry (goes to `CommonPrefixes`). -/
inductive SEntry where
  | objEntry (k : Key)
  | cpEntry (g : Key)
  deriving DecidableEq, Repr

/-- The canonical, unbounded listing emission sequence: one pass over the
key-ascending iterator, skipping keys that do not match the prefix,
collapsing keys under a delimiter into common prefixes, and emitting each
common prefix only once (`cps` accumulates the already-emitted ones). -/
def emitAll (pfx delim : Key) : List Key → List Key → List SEntry
  | [], _ => []
  | k :: ks, cps =>
    if pfx ≠ [] ∧ ¬ pfx <+: k then emitAll pfx delim ks cps
    else
      match computeGroup pfx delim k with
      | some g =>
        if g ∈ cps then emitAll pfx delim ks cps
        else .cpEntry g :: emitAll pfx delim ks (g :: cps)
      | none => .objEntry k :: emitAll pfx delim ks cps

/-- `key < continuation-token` skip of `list_objects_v2` (line 1750). -/
def skipBeforeTok (k : Key) : Option Key → Bool
  | some t => decide (k < t)
  | none => false

/-- `key <= start_after` skip of `list_objects_v2` (line 1754). -/
def skipBeforeStart (k : Key) : Option Key → Bool
  | some s0 => decide (k ≤ s0)
  | none => false

/-- `key <= marker` skip of `list_objects` (line 1628). -/
def skipLeMarker (k : Key) : Option Key → Bool
  | some mk => decide (k ≤ mk)
  | none => false

/-- `marker.startswith(prefix_including_delimiter)` of `list_objects`
(line 1643). -/
def markerInGroup (g : Key) : Option Key → Bool
  | some mk => decide (g <+: mk)
  | none => false

/-- The result of one listing pass: the emissions in iteration order, the
truncation flag, and the next marker / continuation token (decoded). -/
structure PageResult where
  entries : List SEntry
  isTruncated : Bool
  nextMarker : Option Key
  deriving DecidableEq, Repr

/-- The enumeration loop of `list_objects_v2` (`provider.py` lines
1746-1806) over the sorted current object keys.  Continuation tokens are
modelled by their base64-decoded value (urlsafe base64 is a bijection used
only for transport, and `decode (encode k) = k`). -/
def listObjectsV2Loop (pfx delim : Key) (maxKeys : Nat)
    (tok startAfter : Option Key) :
    List Key → List Key → Nat → PageResult
  | [], _, _ => ⟨[], false, none⟩
  | k :: ks, cps, count =>
    if skipBeforeTok k tok then
      listObjectsV2Loop pfx delim maxKeys tok startAfter ks cps count
    else if tok = none ∧ skipBeforeStart k startAfter then
      listObjectsV2Loop pfx delim maxKeys tok startAfter ks cps count
    else if pfx ≠ [] ∧ ¬ pfx <+: k then
      listObjectsV2Loop pfx delim maxKeys tok startAfter ks cps count
    else
      match computeGroup pfx delim k with
      | some g =>
        if g ∈ cps then
          listObjectsV2Loop pfx delim maxKeys tok startAfter ks cps count
        else if maxKeys ≤ count then ⟨[], true, some k⟩
        else
          let r := listObjectsV2Loop pfx delim maxKeys tok startAfter ks (g :: cps) (count + 1)
          ⟨.cpEntry g :: r.entries, r.isTruncated, r.nextMarker⟩
      | none =>
        if maxKeys ≤ count then ⟨[], true, some k⟩
        else
          let r := listObjectsV2Loop pfx delim maxKeys tok startAfter ks cps (count + 1)
          ⟨.objEntry k :: r.entries, r.isTruncated, r.nextMarker⟩

/-- The enumeration loop of `list_objects` (v1, `provider.py` lines
1625-1676) over the sorted current object keys.  `lastKey` is the last key
of the whole sorted listing (`all_keys[-1]`), used by the truncation test
`last_key.key != s3_object.key`. -/
def listObjectsLoop (pfx delim : Key) (maxKeys : Nat)
    (marker lastKey : Option Key) :
    List Key → List Key → Nat → PageResult
  | [], _, _ => ⟨[], false, none⟩
  | k :: ks, cps, count =>
    if skipLeMarker k marker then
      listObjectsLoop pfx delim maxKeys marker lastKey ks cps count
    else if pfx ≠ [] ∧ ¬ pfx <+: k then
      listObjectsLoop pfx delim maxKeys marker lastKey ks cps count
    else
      match computeGroup pfx delim k with
      | some g =>
        if g ∈ cps ∨ markerInGroup g marker = true then
          listObjectsLoop pfx delim maxKeys marker lastKey ks cps count
        else if maxKeys ≤ count + 1 ∧ lastKey ≠ some k then
          ⟨[.cpEntry g], true, some g⟩
        else
          let r := listObjectsLoop pfx delim maxKeys marker lastKey ks (g :: cps) (count + 1)
          ⟨.cpEntry g :: r.entries, r.isTruncated, r.nextMarker⟩
      | none =>
        if maxKeys ≤ count + 1 ∧ lastKey ≠ some k then
          ⟨[.objEntry k], true, some k⟩
        else
          let r := listObjectsLoop pfx delim maxKeys marker lastKey ks cps (count + 1)
          ⟨.objEntry k :: r.entries, r.isTruncated, r.nextMarker⟩

/-- `max_keys = max_keys or 1000` (`provider.py` lines 1612 and 1731):
Python `or` replaces both `None` and `0` by the default 1000. -/
def effMaxKeys : Option Nat → Nat
  | none => 1000
  | some v => if v = 0 then 1000 else v

/-- The key of an object emission. -/
def SEntry.objKey? : SEntry → Option Key
  | .objEntry k => some k
  | .cpEntry _ => none

/-- The common prefix of a common-prefix emission. -/
def SEntry.cpKey? : SEntry → Option Key
  | .cpEntry g => some g
  | .objEntry _ => none

/-- The `ListObjects` (v1) response fields modelled here. -/
structure ListObjectsOut where
  contents : List Key
  commonPrefixes : List Key
  isTruncated : Bool
  nextMarker : Option Key
  maxKeys : Nat
  deriving DecidableEq, Repr

/-- `provider.py` lines 1592-1701: `list_objects` (without URL encoding),
over the sorted current object keys of the bucket.  `NextMarker` is only
attached to the response when a delimiter was supplied (line 1695). -/
def list_objects (keys : List Key) (pfx delim marker : Option Key)
    (maxKeys0 : Option Nat) : ListObjectsOut :=
  let m := effMaxKeys maxKeys0
  let p := pfx.getD []
  let d := delim.getD []
  let r := listObjectsLoop p d m marker keys.getLast? keys [] 0
  { contents := r.entries.filterMap SEntry.objKey?
    commonPrefixes := List.insertionSort (· ≤ ·) (r.entries.filterMap SEntry.cpKey?)
    isTruncated := r.isTruncated
    nextMarker := if d ≠ [] then r.nextMarker else none
    maxKeys := m }

/-- The `ListObjectsV2` response fields modelled here. -/
structure ListObjectsV2Out where
  contents : List Key
  commonPrefixes : List Key
  isTruncated : Bool
  nextContinuationToken : Option Key
  keyCount : Nat
  maxKeys : Nat
  deriving DecidableEq, Repr

/-- `provider.py` lines 1703-1837: `list_objects_v2` (without URL encoding),
over the sorted current object keys.  A present-but-empty continuation
token raises `InvalidArgument` before anything is enumerated (lines
1721-1725); base64 transport of tokens is modelled away (tokens appear
decoded). -/
def list_objects_v2 (keys : List Key) (pfx delim : Option Key)
    (maxKeys0 : Option Nat) (continuationToken startAfter : Option Key) :
    Except S3Error ListObjectsV2Out :=
  if continuationToken = some [] then .error .invalidArgument
  else
    let m := effMaxKeys maxKeys0
    let p := pfx.getD []
    let d := delim.getD []
    let r := listObjectsV2Loop p d m continuationToken startAfter keys [] 0
    .ok
      { contents := r.entries.filterMap SEntry.objKey?
        commonPrefixes := List.insertionSort (· ≤ ·) (r.entries.filterMap SEntry.cpKey?)
        isTruncated := r.isTruncated
        nextContinuationToken := r.nextMarker
        keyCount := r.entries.length
        maxKeys := m }

/-- Repeated paginated `ListObjectsV2`: issue the request, and while the
response is truncated re-issue it with the returned
`NextContinuationToken`; collect the emissions of every page in order.
`fuel` bounds the number of pages. -/
def pagesV2 (pfx delim : Key) (m : Nat) (keys : List Key) :
    Nat → Option Key → List SEntry
  | 0, _ => []
  | fuel + 1, tok =>
    let r := listObjectsV2Loop pfx delim m tok none keys [] 0
    if r.isTruncated then r.entries ++ pagesV2 pfx delim m keys fuel r.nextMarker
    else r.entries

/-- Repeated paginated `ListObjects` (v1): re-issue with the returned
`NextMarker` while truncated. -/
def pagesV1 (pfx delim : Key) (m : Nat) (keys : List Key) :
    Nat → Option Key → List SEntry
  | 0, _ => []
  | fuel + 1, marker =>
    let r := listObjectsLoop pfx delim m marker keys.getLast? keys [] 0
    if r.isTruncated then r.entries ++ pagesV1 pfx delim m keys fuel r.nextMarker
    else r.entries

theorem partitionFirst_sound {d : Key} : ∀ {s x r : Key},
    partitionFirst d s = some (x, r) → s = x ++ d ++ r := by
  intro s
  induction s with
  | nil =>
    intro x r h
    simp only [partitionFirst] at h
    split at h
    · rename_i hd
      obtain ⟨hx, hr⟩ := by simpa using h
      subst hd hx hr; rfl
    · cases h
  | cons c s' ih =>
    intro x r h
    simp only [partitionFirst] at h
    split at h
    · rename_i hpre
      obtain ⟨t, ht⟩ := hpre
      obtain ⟨hx, hr⟩ := by simpa using h
      subst hx
      rw [← ht] at hr
      rw [← hr, ← ht, List.drop_left]
      rfl
    · rename_i hpre
      rw [Option.map_eq_some'] at h
      obtain ⟨⟨x', r'⟩, hpf, heq⟩ := h
      obtain ⟨hx, hr⟩ := by simpa using heq
      subst hx hr
      have := ih hpf
      simp [this]

theorem partitionFirst_self_append (d t : Key) :
    partitionFirst d (d ++ t) = some ([], t) := by
  cases d with
  | nil =>
    cases t with
    | nil => simp [partitionFirst]
    | cons c t' => simp [partitionFirst, List.nil_prefix]
  | cons e d' =>
    have hshape : (e :: d') ++ t = e :: (d' ++ t) := rfl
    show partitionFirst (e :: d') ((e :: d') ++ t) = some ([], t)
    rw [hshape, partitionFirst,
      if_pos (by rw [← hshape]; exact List.prefix_append _ _), ← hshape,
      List.drop_left]

theorem prefix_stable_append {d u a b : Key} (h : d.length ≤ u.length) :
    d <+: u ++ a ↔ d <+: u ++ b := by
  have key : ∀ x : Key, (u ++ x).take d.length = u.take d.length := by
    intro x
    rw [List.take_append_eq_append_take, Nat.sub_eq_zero_of_le h, List.take_zero,
      List.append_nil]
  rw [List.prefix_iff_eq_take, List.prefix_iff_eq_take, key a, key b]

theorem partitionFirst_extend {d : Key} : ∀ {s x r : Key},
    partitionFirst d s = some (x, r) → ∀ t, partitionFirst d (x ++ d ++ t) = some (x, t) := by
  intro s
  induction s with
  | nil =>
    intro x r h t
    simp only [partitionFirst] at h
    split at h
    · rename_i hd
      obtain ⟨hx, hr⟩ := by simpa using h
      subst hd hx
      simpa using partitionFirst_self_append [] t
    · cases h
  | cons c s' ih =>
    intro x r h t
    simp only [partitionFirst] at h
    split at h
    · obtain ⟨hx, hr⟩ := by simpa using h
      subst hx
      simpa using partitionFirst_self_append d t
    · rename_i hpre
      rw [Option.map_eq_some'] at h
      obtain ⟨⟨x', r'⟩, hpf, heq⟩ := h
      obtain ⟨hx, hr⟩ := by simpa using heq
      subst hx hr
      have hs' : s' = x' ++ d ++ r' := partitionFirst_sound hpf
      show partitionFirst d (c :: (x' ++ d ++ t)) = some (c :: x', t)
      rw [partitionFirst]
      have hlen : d.length ≤ (c :: (x' ++ d)).length := by simp; omega
      have hnp : ¬ d <+: c :: (x' ++ d ++ t) := by
        intro hcontra
        apply hpre
        rw [hs']
        have h1 : c :: (x' ++ d ++ t) = (c :: (x' ++ d)) ++ t := by simp
        have h2 : c :: (x' ++ d ++ r') = (c :: (x' ++ d)) ++ r' := by simp
        rw [h2]
        rw [h1] at hcontra
        exact (prefix_stable_append hlen).mp hcontra
      rw [if_neg hnp, ih hpf t]
      rfl

theorem removePfx_append (p u : Key) : removePfx p (p ++ u) = u := by
  rw [removePfx, if_pos (List.prefix_append p u), List.drop_left]

/-- If some key has canonical common prefix `g`, then every key extending `g`
has canonical common prefix `g` as well: the first occurrence of the
delimiter in the suffix is determined by `g` itself. -/
theorem computeGroup_canonical {pfx delim k0 k1 g : Key}
    (h0 : computeGroup pfx delim k0 = some g) (hpre : g <+: k1) :
    computeGroup pfx delim k1 = some g := by
  rw [computeGroup] at h0 ⊢
  split at h0
  · cases h0
  · rename_i hd
    rw [if_neg hd]
    rw [Option.map_eq_some'] at h0
    obtain ⟨⟨x, r0⟩, hpf, heq⟩ := h0
    simp only at heq
    obtain ⟨t, ht⟩ := hpre
    rw [← heq] at ht
    have hk1 : k1 = pfx ++ (x ++ delim ++ t) := by rw [← ht]; simp
    rw [hk1, removePfx_append, partitionFirst_extend hpf t]
    simpa using heq

/-- A key's canonical common prefix is a prefix of the key, provided the key
passed the listing's prefix filter. -/
theorem computeGroup_isPfx {pfx delim k g : Key}
    (hok : pfx = [] ∨ pfx <+: k) (h : computeGroup pfx delim k = some g) :
    g <+: k := by
  rw [computeGroup] at h
  split at h
  · cases h
  · rw [Option.map_eq_some'] at h
    obtain ⟨⟨x, r⟩, hpf, heq⟩ := h
    have hs := partitionFirst_sound hpf
    rcases hok with hp | ⟨u, hu⟩
    · subst hp
      rw [removePfx, if_pos (List.nil_prefix)] at hs
      simp only [List.length_nil, List.drop_zero] at hs
      rw [← heq, hs]
      exact ⟨r, by simp⟩
    · rw [← hu, removePfx_append] at hs
      rw [← heq, ← hu, hs]
      exact ⟨r, by simp⟩

theorem le_of_isPfx : ∀ {g k : Key}, g <+: k → g ≤ k := by
  intro g
  induction g with
  | nil => intro k _; exact List.nil_le
  | cons e g' ih =>
    intro k h
    obtain ⟨t, ht⟩ := h
    subst ht
    show (e :: g') ≤ e :: (g' ++ t)
    rcases lt_or_eq_of_le (ih ⟨t, rfl⟩) with hlt | heq
    · have hlt' : List.Lex (· < ·) g' (g' ++ t) := hlt
      exact le_of_lt (show (e :: g') < (e :: (g' ++ t)) from List.Lex.cons hlt')
    · rw [← heq]

theorem lex_cons_inv {x y : Char} {l m : Key} (h : (x :: l) < (y :: m)) :
    x < y ∨ (x = y ∧ l < m) := by
  change List.Lex (· < ·) _ _ at h
  cases h with
  | cons h' => exact Or.inr ⟨rfl, h'⟩
  | rel h' => exact Or.inl h'

theorem le_cons_inv {x y : Char} {l m : Key} (h : (x :: l) ≤ (y :: m)) :
    x < y ∨ (x = y ∧ l ≤ m) := by
  rcases lt_or_eq_of_le h with hlt | heq
  · rcases lex_cons_inv hlt with h' | ⟨hxy, h'⟩
    · exact Or.inl h'
    · exact Or.inr ⟨hxy, le_of_lt h'⟩
  · obtain ⟨h1, h2⟩ := List.cons.inj heq
    exact Or.inr ⟨h1, le_of_eq h2⟩

theorem not_cons_le_nil {x : Char} {l : Key} (h : (x :: l) ≤ ([] : Key)) : False := by
  rcases lt_or_eq_of_le h with hlt | heq
  · change List.Lex (· < ·) _ _ at hlt
    cases hlt
  · cases heq

/-- Keys sharing a fixed prefix form a lexicographically convex set: any key
between two extensions of `g` is itself an extension of `g`. -/
theorem isPfx_convex : ∀ {g a b c : Key}, g <+: a → g <+: b →
    a ≤ c → c ≤ b → g <+: c := by
  intro g
  induction g with
  | nil => intro a b c _ _ _ _; exact List.nil_prefix
  | cons e g' ih =>
    intro a b c ha hb hac hcb
    obtain ⟨t, ht⟩ := ha
    obtain ⟨u, hu⟩ := hb
    subst ht hu
    cases c with
    | nil => exact absurd hac (by intro h; exact not_cons_le_nil (by simpa using h))
    | cons y c' =>
      have hac' : (e :: (g' ++ t)) ≤ (y :: c') := by simpa using hac
      have hcb' : (y :: c') ≤ (e :: (g' ++ u)) := by simpa using hcb
      rcases le_cons_inv hac' with h1 | ⟨h1, h1'⟩ <;>
        rcases le_cons_inv hcb' with h2 | ⟨h2, h2'⟩
      · exact absurd (h1.trans h2) (lt_irrefl _)
      · rw [h2] at h1; exact absurd h1 (lt_irrefl _)
      · rw [← h1] at h2; exact absurd h2 (lt_irrefl _)
      · subst h1
        have : g' <+: c' := ih ⟨t, rfl⟩ ⟨u, rfl⟩ h1' h2'
        exact (List.cons_prefix_cons).mpr ⟨rfl, this⟩

/-- The interval argument: once the listing has moved past the break key `K`,
no key at or after `K` can belong to a common prefix `g` emitted strictly
before `K`, unless `K` itself belongs to `g`. -/
theorem group_no_recurrence {pfx delim k0 K k1 g : Key}
    (h0ok : pfx = [] ∨ pfx <+: k0) (h0 : computeGroup pfx delim k0 = some g)
    (h1ok : pfx = [] ∨ pfx <+: k1) (h1 : computeGroup pfx delim k1 = some g)
    (hK : computeGroup pfx delim K ≠ some g)
    (h0K : k0 ≤ K) (hK1 : K ≤ k1) : False :=
  hK (computeGroup_canonical h0
    (isPfx_convex (computeGroup_isPfx h0ok h0) (computeGroup_isPfx h1ok h1) h0K hK1))

theorem emitAll_cons_filtered {pfx delim k : Key} {ks cps : List Key}
    (hf : pfx ≠ [] ∧ ¬ pfx <+: k) :
    emitAll pfx delim (k :: ks) cps = emitAll pfx delim ks cps := by
  simp only [emitAll]; rw [if_pos hf]

theorem emitAll_cons_none {pfx delim k : Key} {ks cps : List Key}
    (hf : ¬ (pfx ≠ [] ∧ ¬ pfx <+: k)) (hg : computeGroup pfx delim k = none) :
    emitAll pfx delim (k :: ks) cps = .objEntry k :: emitAll pfx delim ks cps := by
  simp only [emitAll]; rw [if_neg hf, hg]

theorem emitAll_cons_some_mem {pfx delim k g : Key} {ks cps : List Key}
    (hf : ¬ (pfx ≠ [] ∧ ¬ pfx <+: k)) (hg : computeGroup pfx delim k = some g)
    (hm : g ∈ cps) :
    emitAll pfx delim (k :: ks) cps = emitAll pfx delim ks cps := by
  simp only [emitAll]; rw [if_neg hf, hg]; exact if_pos hm

theorem emitAll_cons_some_new {pfx delim k g : Key} {ks cps : List Key}
    (hf : ¬ (pfx ≠ [] ∧ ¬ pfx <+: k)) (hg : computeGroup pfx delim k = some g)
    (hm : g ∉ cps) :
    emitAll pfx delim (k :: ks) cps = .cpEntry g :: emitAll pfx delim ks (g :: cps) := by
  simp only [emitAll]; rw [if_neg hf, hg]; exact if_neg hm

theorem emitAll_congr {pfx delim : Key} : ∀ {l c1 c2 : List Key},
    (∀ k ∈ l, (pfx = [] ∨ pfx <+: k) → ∀ g, computeGroup pfx delim k = some g →
      (g ∈ c1 ↔ g ∈ c2)) →
    emitAll pfx delim l c1 = emitAll pfx delim l c2 := by
  intro l
  induction l with
  | nil => intro c1 c2 _; rfl
  | cons k ks ih =>
    intro c1 c2 h
    have htail := fun k' hk' => h k' (List.mem_cons_of_mem _ hk')
    by_cases hf : pfx ≠ [] ∧ ¬ pfx <+: k
    · rw [emitAll_cons_filtered hf, emitAll_cons_filtered hf]
      exact ih htail
    · have hok : pfx = [] ∨ pfx <+: k := by
        by_cases hp : pfx = []
        · exact Or.inl hp
        · exact Or.inr (by push_neg at hf; exact hf hp)
      cases hg : computeGroup pfx delim k with
      | none =>
        rw [emitAll_cons_none hf hg, emitAll_cons_none hf hg, ih htail]
      | some g =>
        have hiff := h k (List.mem_cons_self _ _) hok g hg
        by_cases hmem : g ∈ c1
        · rw [emitAll_cons_some_mem hf hg hmem,
            emitAll_cons_some_mem hf hg (hiff.mp hmem)]
          exact ih htail
        · rw [emitAll_cons_some_new hf hg hmem,
            emitAll_cons_some_new hf hg (fun hc2 => hmem (hiff.mpr hc2))]
          have : emitAll pfx delim ks (g :: c1) = emitAll pfx delim ks (g :: c2) := by
            apply ih
            intro k' hk' hok' g' hg'
            simp only [List.mem_cons]
            have hiff' := htail k' hk' hok' g' hg'
            constructor
            · rintro (rfl | hmem')
              · exact Or.inl rfl
              · exact Or.inr (hiff'.mp hmem')
            · rintro (rfl | hmem')
              · exact Or.inl rfl
              · exact Or.inr (hiff'.mpr hmem')
          rw [this]

theorem emitAll_append_skip {pfx delim : Key} : ∀ {l1 l2 cps : List Key},
    (∀ k ∈ l1, ∃ g ∈ cps, computeGroup pfx delim k = some g) →
    emitAll pfx delim (l1 ++ l2) cps = emitAll pfx delim l2 cps := by
  intro l1
  induction l1 with
  | nil => intro l2 cps _; rfl
  | cons k l1' ih =>
    intro l2 cps h
    obtain ⟨g, hgmem, hg⟩ := h k (List.mem_cons_self _ _)
    have htail := fun k' hk' => h k' (List.mem_cons_of_mem _ hk')
    show emitAll pfx delim (k :: (l1' ++ l2)) cps = emitAll pfx delim l2 cps
    by_cases hf : pfx ≠ [] ∧ ¬ pfx <+: k
    · rw [emitAll_cons_filtered hf]; exact ih htail
    · rw [emitAll_cons_some_mem hf hg hgmem]; exact ih htail

theorem emitAll_obj_mem {pfx delim : Key} : ∀ {l cps : List Key} {k : Key},
    SEntry.objEntry k ∈ emitAll pfx delim l cps → k ∈ l := by
  intro l
  induction l with
  | nil => intro cps k h; simp [emitAll] at h
  | cons k' ks ih =>
    intro cps k h
    by_cases hf : pfx ≠ [] ∧ ¬ pfx <+: k'
    · rw [emitAll_cons_filtered hf] at h
      exact List.mem_cons_of_mem _ (ih h)
    · cases hg : computeGroup pfx delim k' with
      | none =>
        rw [emitAll_cons_none hf hg] at h
        rcases List.mem_cons.mp h with heq | hmem
        · injection heq with h1
          exact h1 ▸ List.mem_cons_self _ _
        · exact List.mem_cons_of_mem _ (ih hmem)
      | some g =>
        by_cases hmem : g ∈ cps
        · rw [emitAll_cons_some_mem hf hg hmem] at h
          exact List.mem_cons_of_mem _ (ih h)
        · rw [emitAll_cons_some_new hf hg hmem] at h
          rcases List.mem_cons.mp h with heq | hmem'
          · cases heq
          · exact List.mem_cons_of_mem _ (ih hmem')

theorem emitAll_cp_not_mem {pfx delim : Key} : ∀ {l cps : List Key} {g : Key},
    SEntry.cpEntry g ∈ emitAll pfx delim l cps → g ∉ cps := by
  intro l
  induction l with
  | nil => intro cps g h; simp [emitAll] at h
  | cons k' ks ih =>
    intro cps g h
    by_cases hf : pfx ≠ [] ∧ ¬ pfx <+: k'
    · rw [emitAll_cons_filtered hf] at h
      exact ih h
    · cases hg : computeGroup pfx delim k' with
      | none =>
        rw [emitAll_cons_none hf hg] at h
        rcases List.mem_cons.mp h with heq | hmem
        · cases heq
        · exact ih hmem
      | some g' =>
        by_cases hmem : g' ∈ cps
        · rw [emitAll_cons_some_mem hf hg hmem] at h
          exact ih h
        · rw [emitAll_cons_some_new hf hg hmem] at h
          rcases List.mem_cons.mp h with heq | hmem'
          · injection heq with h1
            exact h1 ▸ hmem
          · intro hmemc
            exact ih hmem' (List.mem_cons_of_mem _ hmemc)

/-- The canonical listing emits no entry twice. -/
theorem emitAll_nodup {pfx delim : Key} : ∀ {l cps : List Key},
    l.Pairwise (· < ·) → (emitAll pfx delim l cps).Nodup := by
  intro l
  induction l with
  | nil => intro cps _; simp [emitAll]
  | cons k ks ih =>
    intro cps hp
    obtain ⟨hk, hks⟩ := List.pairwise_cons.mp hp
    by_cases hf : pfx ≠ [] ∧ ¬ pfx <+: k
    · rw [emitAll_cons_filtered hf]
      exact ih hks
    · cases hg : computeGroup pfx delim k with
      | none =>
        rw [emitAll_cons_none hf hg]
        refine List.nodup_cons.mpr ⟨fun hmem => ?_, ih hks⟩
        exact absurd (hk k (emitAll_obj_mem hmem)) (lt_irrefl k)
      | some g =>
        by_cases hmem : g ∈ cps
        · rw [emitAll_cons_some_mem hf hg hmem]
          exact ih hks
        · rw [emitAll_cons_some_new hf hg hmem]
          refine List.nodup_cons.mpr ⟨fun hmem' => ?_, ih hks⟩
          exact emitAll_cp_not_mem hmem' (List.mem_cons_self _ _)

theorem loopV2_cons_skip_tok {pfx delim : Key} {m : Nat} {tok sa : Option Key}
    {k : Key} {ks cps : List Key} {c : Nat} (h : skipBeforeTok k tok = true) :
    listObjectsV2Loop pfx delim m tok sa (k :: ks) cps c
      = listObjectsV2Loop pfx delim m tok sa ks cps c := by
  simp only [listObjectsV2Loop]; rw [if_pos h]

theorem loopV2_cons_skip_sa {pfx delim : Key} {m : Nat} {tok sa : Option Key}
    {k : Key} {ks cps : List Key} {c : Nat} (h1 : skipBeforeTok k tok = false)
    (h2 : tok = none ∧ skipBeforeStart k sa = true) :
    listObjectsV2Loop pfx delim m tok sa (k :: ks) cps c
      = listObjectsV2Loop pfx delim m tok sa ks cps c := by
  simp only [listObjectsV2Loop]; rw [if_neg (by simp [h1]), if_pos h2]

theorem loopV2_cons_filtered {pfx delim : Key} {m : Nat} {tok sa : Option Key}
    {k : Key} {ks cps : List Key} {c : Nat} (h1 : skipBeforeTok k tok = false)
    (h2 : ¬ (tok = none ∧ skipBeforeStart k sa = true))
    (hf : pfx ≠ [] ∧ ¬ pfx <+: k) :
    listObjectsV2Loop pfx delim m tok sa (k :: ks) cps c
      = listObjectsV2Loop pfx delim m tok sa ks cps c := by
  simp only [listObjectsV2Loop]; rw [if_neg (by simp [h1]), if_neg h2, if_pos hf]

theorem loopV2_cons_some_mem {pfx delim : Key} {m : Nat} {tok sa : Option Key}
    {k g : Key} {ks cps : List Key} {c : Nat} (h1 : skipBeforeTok k tok = false)
    (h2 : ¬ (tok = none ∧ skipBeforeStart k sa = true))
    (hf : ¬ (pfx ≠ [] ∧ ¬ pfx <+: k)) (hg : computeGroup pfx delim k = some g)
    (hm : g ∈ cps) :
    listObjectsV2Loop pfx delim m tok sa (k :: ks) cps c
      = listObjectsV2Loop pfx delim m tok sa ks cps c := by
  simp only [listObjectsV2Loop]
  rw [if_neg (by simp [h1]), if_neg h2, if_neg hf, hg]
  exact if_pos hm

theorem loopV2_cons_some_break {pfx delim : Key} {m : Nat} {tok sa : Option Key}
    {k g : Key} {ks cps : List Key} {c : Nat} (h1 : skipBeforeTok k tok = false)
    (h2 : ¬ (tok = none ∧ skipBeforeStart k sa = true))
    (hf : ¬ (pfx ≠ [] ∧ ¬ pfx <+: k)) (hg : computeGroup pfx delim k = some g)
    (hm : g ∉ cps) (hcnt : m ≤ c) :
    listObjectsV2Loop pfx delim m tok sa (k :: ks) cps c = ⟨[], true, some k⟩ := by
  simp only [listObjectsV2Loop]
  rw [if_neg (by simp [h1]), if_neg h2, if_neg hf, hg]
  show (if g ∈ cps then _ else if m ≤ c then _ else _) = _
  rw [if_neg hm, if_pos hcnt]

theorem loopV2_cons_some_emit {pfx delim : Key} {m : Nat} {tok sa : Option Key}
    {k g : Key} {ks cps : List Key} {c : Nat} (h1 : skipBeforeTok k tok = false)
    (h2 : ¬ (tok = none ∧ skipBeforeStart k sa = true))
    (hf : ¬ (pfx ≠ [] ∧ ¬ pfx <+: k)) (hg : computeGroup pfx delim k = some g)
    (hm : g ∉ cps) (hcnt : ¬ m ≤ c) :
    listObjectsV2Loop pfx delim m tok sa (k :: ks) cps c
      = ⟨.cpEntry g :: (listObjectsV2Loop pfx delim m tok sa ks (g :: cps) (c + 1)).entries,
         (listObjectsV2Loop pfx delim m tok sa ks (g :: cps) (c + 1)).isTruncated,
         (listObjectsV2Loop pfx delim m tok sa ks (g :: cps) (c + 1)).nextMarker⟩ := by
  simp only [listObjectsV2Loop]
  rw [if_neg (by simp [h1]), if_neg h2, if_neg hf, hg]
  show (if g ∈ cps then _ else if m ≤ c then _ else _) = _
  rw [if_neg hm, if_neg hcnt]

theorem loopV2_cons_none_break {pfx delim : Key} {m : Nat} {tok sa : Option Key}
    {k : Key} {ks cps : List Key} {c : Nat} (h1 : skipBeforeTok k tok = false)
    (h2 : ¬ (tok = none ∧ skipBeforeStart k sa = true))
    (hf : ¬ (pfx ≠ [] ∧ ¬ pfx <+: k)) (hg : computeGroup pfx delim k = none)
    (hcnt : m ≤ c) :
    listObjectsV2Loop pfx delim m tok sa (k :: ks) cps c = ⟨[], true, some k⟩ := by
  simp only [listObjectsV2Loop]
  rw [if_neg (by simp [h1]), if_neg h2, if_neg hf, hg]
  show (if m ≤ c then _ else _) = _
  rw [if_pos hcnt]

theorem loopV2_cons_none_emit {pfx delim : Key} {m : Nat} {tok sa : Option Key}
    {k : Key} {ks cps : List Key} {c : Nat} (h1 : skipBeforeTok k tok = false)
    (h2 : ¬ (tok = none ∧ skipBeforeStart k sa = true))
    (hf : ¬ (pfx ≠ [] ∧ ¬ pfx <+: k)) (hg : computeGroup pfx delim k = none)
    (hcnt : ¬ m ≤ c) :
    listObjectsV2Loop pfx delim m tok sa (k :: ks) cps c
      = ⟨.objEntry k :: (listObjectsV2Loop pfx delim m tok sa ks cps (c + 1)).entries,
         (listObjectsV2Loop pfx delim m tok sa ks cps (c + 1)).isTruncated,
         (listObjectsV2Loop pfx delim m tok sa ks cps (c + 1)).nextMarker⟩ := by
  simp only [listObjectsV2Loop]
  rw [if_neg (by simp [h1]), if_neg h2, if_neg hf, hg]
  show (if m ≤ c then _ else _) = _
  rw [if_neg hcnt]

/-- The effective key list a `list_objects_v2` page enumerates: all keys, or
the keys at or after the (decoded) continuation token. -/
def effV2 (keys : List Key) : Option Key → List Key
  | none => keys
  | some t => keys.filter (fun k => decide (t ≤ k))

theorem loopV2_eq_eff {pfx delim : Key} {m : Nat} (t : Key) :
    ∀ (keys cps : List Key) (c : Nat),
    listObjectsV2Loop pfx delim m (some t) none keys cps c
      = listObjectsV2Loop pfx delim m none none
          (keys.filter (fun k => decide (t ≤ k))) cps c := by
  intro keys
  induction keys with
  | nil => intro cps c; rfl
  | cons k ks ih =>
    intro cps c
    by_cases hk : k < t
    · rw [loopV2_cons_skip_tok (by simp [skipBeforeTok, hk]),
        List.filter_cons_of_neg (by simpa using not_le_of_lt hk)]
      exact ih cps c
    · have h1s : skipBeforeTok k (some t) = false := by simp [skipBeforeTok, hk]
      have h1n : skipBeforeTok k (none : Option Key) = false := rfl
      have h2s : ¬ ((some t : Option Key) = none ∧ skipBeforeStart k none = true) := by simp
      have h2n : ¬ ((none : Option Key) = none ∧ skipBeforeStart k (none : Option Key) = true) := by
        simp [skipBeforeStart]
      rw [List.filter_cons_of_pos (by simpa using not_lt.mp hk)]
      by_cases hf : pfx ≠ [] ∧ ¬ pfx <+: k
      · rw [loopV2_cons_filtered h1s h2s hf, loopV2_cons_filtered h1n h2n hf]
        exact ih cps c
      · cases hg : computeGroup pfx delim k with
        | some g =>
          by_cases hm : g ∈ cps
          · rw [loopV2_cons_some_mem h1s h2s hf hg hm,
              loopV2_cons_some_mem h1n h2n hf hg hm]
            exact ih cps c
          · by_cases hcnt : m ≤ c
            · rw [loopV2_cons_some_break h1s h2s hf hg hm hcnt,
                loopV2_cons_some_break h1n h2n hf hg hm hcnt]
            · rw [loopV2_cons_some_emit h1s h2s hf hg hm hcnt,
                loopV2_cons_some_emit h1n h2n hf hg hm hcnt, ih (g :: cps) (c + 1)]
        | none =>
          by_cases hcnt : m ≤ c
          · rw [loopV2_cons_none_break h1s h2s hf hg hcnt,
              loopV2_cons_none_break h1n h2n hf hg hcnt]
          · rw [loopV2_cons_none_emit h1s h2s hf hg hcnt,
              loopV2_cons_none_emit h1n h2n hf hg hcnt, ih cps (c + 1)]

/-- Structure of a single `list_objects_v2` page over the keys at or after
the resume point: an untruncated page emits exactly the canonical listing;
a truncated page emits a prefix of it, stops at a break key `K` (returned
as the next continuation token), has emitted exactly `maxKeys` entries, and
the canonical listing resumes at `K` with the common prefixes `cps'`
accumulated so far — each of which either was passed in or was emitted at a
key strictly before `K`, and none of which is the group of `K` itself. -/
theorem loopV2_split (pfx delim : Key) (m : Nat) :
    ∀ (keys cps : List Key) (c : Nat) (r : PageResult),
    keys.Pairwise (· < ·) → c ≤ m →
    listObjectsV2Loop pfx delim m none none keys cps c = r →
    (r.isTruncated = false →
      r.nextMarker = none ∧ r.entries = emitAll pfx delim keys cps) ∧
    (r.isTruncated = true →
      ∃ K pre suf cps',
        r.nextMarker = some K ∧
        keys = pre ++ K :: suf ∧
        r.entries.length ≤ pre.length ∧
        c + r.entries.length = m ∧
        emitAll pfx delim keys cps = r.entries ++ emitAll pfx delim (K :: suf) cps' ∧
        (∀ g' ∈ cps', g' ∈ cps ∨
          ∃ k0 ∈ pre, (pfx = [] ∨ pfx <+: k0) ∧ computeGroup pfx delim k0 = some g') ∧
        (∀ g', computeGroup pfx delim K = some g' → g' ∉ cps')) := by
  intro keys
  induction keys with
  | nil =>
    intro cps c r _ _ hr
    rw [← hr]
    constructor
    · intro _; exact ⟨rfl, rfl⟩
    · intro ht; cases ht
  | cons k ks ih =>
    intro cps c r hp hc hr
    have hp' : ks.Pairwise (· < ·) := (List.pairwise_cons.mp hp).2
    have h1 : skipBeforeTok k (none : Option Key) = false := rfl
    have h2 : ¬ ((none : Option Key) = none ∧ skipBeforeStart k (none : Option Key) = true) := by
      simp [skipBeforeStart]
    by_cases hf : pfx ≠ [] ∧ ¬ pfx <+: k
    · rw [loopV2_cons_filtered h1 h2 hf] at hr
      obtain ⟨Hf, Ht⟩ := ih cps c r hp' hc hr
      refine ⟨fun h => ?_, fun h => ?_⟩
      · obtain ⟨hnm, hent⟩ := Hf h
        exact ⟨hnm, by rw [hent, emitAll_cons_filtered hf]⟩
      · obtain ⟨K, pre, suf, cps', hnm, hkeys, hlen, hcnt, hglue, hcps, hKnot⟩ := Ht h
        refine ⟨K, k :: pre, suf, cps', hnm, by rw [hkeys]; rfl,
          hlen.trans (Nat.le_succ _), hcnt, ?_, ?_, hKnot⟩
        · rw [emitAll_cons_filtered hf, hglue]
        · intro g' hg'
          rcases hcps g' hg' with hin | ⟨k0, hk0, hok0, hcg0⟩
          · exact Or.inl hin
          · exact Or.inr ⟨k0, List.mem_cons_of_mem _ hk0, hok0, hcg0⟩
    · have hok : pfx = [] ∨ pfx <+: k := by
        by_cases hpe : pfx = []
        · exact Or.inl hpe
        · exact Or.inr (by push_neg at hf; exact hf hpe)
      cases hg : computeGroup pfx delim k with
      | some g =>
        by_cases hmem : g ∈ cps
        · rw [loopV2_cons_some_mem h1 h2 hf hg hmem] at hr
          obtain ⟨Hf, Ht⟩ := ih cps c r hp' hc hr
          refine ⟨fun h => ?_, fun h => ?_⟩
          · obtain ⟨hnm, hent⟩ := Hf h
            exact ⟨hnm, by rw [hent, emitAll_cons_some_mem hf hg hmem]⟩
          · obtain ⟨K, pre, suf, cps', hnm, hkeys, hlen, hcnt, hglue, hcps, hKnot⟩ := Ht h
            refine ⟨K, k :: pre, suf, cps', hnm, by rw [hkeys]; rfl,
              hlen.trans (Nat.le_succ _), hcnt, ?_, ?_, hKnot⟩
            · rw [emitAll_cons_some_mem hf hg hmem, hglue]
            · intro g' hg'
              rcases hcps g' hg' with hin | ⟨k0, hk0, hok0, hcg0⟩
              · exact Or.inl hin
              · exact Or.inr ⟨k0, List.mem_cons_of_mem _ hk0, hok0, hcg0⟩
        · by_cases hcnt : m ≤ c
          · rw [loopV2_cons_some_break h1 h2 hf hg hmem hcnt] at hr
            rw [← hr]
            constructor
            · intro h; cases h
            · intro _
              refine ⟨k, [], ks, cps, rfl, rfl, Nat.le_refl _,
                by simpa using Nat.le_antisymm hc hcnt, rfl,
                fun g' hg' => Or.inl hg', fun g' hcg' => ?_⟩
              rw [hg] at hcg'
              obtain rfl : g = g' := by injection hcg'
              exact hmem
          · rw [loopV2_cons_some_emit h1 h2 hf hg hmem hcnt] at hr
            obtain ⟨Hf, Ht⟩ := ih (g :: cps) (c + 1)
              (listObjectsV2Loop pfx delim m none none ks (g :: cps) (c + 1)) hp'
              (by omega) rfl
            rw [← hr]
            refine ⟨fun h => ?_, fun h => ?_⟩
            · obtain ⟨hnm, hent⟩ := Hf h
              refine ⟨hnm, ?_⟩
              show SEntry.cpEntry g :: _ = _
              rw [hent, emitAll_cons_some_new hf hg hmem]
            · obtain ⟨K, pre, suf, cps', hnm, hkeys, hlen, hcnt', hglue, hcps, hKnot⟩ := Ht h
              refine ⟨K, k :: pre, suf, cps', hnm, by rw [hkeys]; rfl, ?_, ?_, ?_, ?_, hKnot⟩
              · show List.length (_ :: _) ≤ _
                simpa using Nat.succ_le_succ hlen
              · show c + List.length (_ :: _) = m
                simp only [List.length_cons]
                omega
              · rw [emitAll_cons_some_new hf hg hmem, hglue]
                rfl
              · intro g' hg'
                rcases hcps g' hg' with hin | ⟨k0, hk0, hok0, hcg0⟩
                · rcases List.mem_cons.mp hin with rfl | hin'
                  · exact Or.inr ⟨k, List.mem_cons_self _ _, hok, hg⟩
                  · exact Or.inl hin'
                · exact Or.inr ⟨k0, List.mem_cons_of_mem _ hk0, hok0, hcg0⟩
      | none =>
        by_cases hcnt : m ≤ c
        · rw [loopV2_cons_none_break h1 h2 hf hg hcnt] at hr
          rw [← hr]
          constructor
          · intro h; cases h
          · intro _
            refine ⟨k, [], ks, cps, rfl, rfl, Nat.le_refl _,
              by simpa using Nat.le_antisymm hc hcnt, rfl,
              fun g' hg' => Or.inl hg', fun g' hcg' => ?_⟩
            rw [hg] at hcg'
            cases hcg'
        · rw [loopV2_cons_none_emit h1 h2 hf hg hcnt] at hr
          obtain ⟨Hf, Ht⟩ := ih cps (c + 1)
            (listObjectsV2Loop pfx delim m none none ks cps (c + 1)) hp'
            (by omega) rfl
          rw [← hr]
          refine ⟨fun h => ?_, fun h => ?_⟩
          · obtain ⟨hnm, hent⟩ := Hf h
            refine ⟨hnm, ?_⟩
            show SEntry.objEntry k :: _ = _
            rw [hent, emitAll_cons_none hf hg]
          · obtain ⟨K, pre, suf, cps', hnm, hkeys, hlen, hcnt', hglue, hcps, hKnot⟩ := Ht h
            refine ⟨K, k :: pre, suf, cps', hnm, by rw [hkeys]; rfl, ?_, ?_, ?_, ?_, hKnot⟩
            · show List.length (_ :: _) ≤ _
              simpa using Nat.succ_le_succ hlen
            · show c + List.length (_ :: _) = m
              simp only [List.length_cons]
              omega
            · rw [emitAll_cons_none hf hg, hglue]
              rfl
            · intro g' hg'
              rcases hcps g' hg' with hin | ⟨k0, hk0, hok0, hcg0⟩
              · exact Or.inl hin
              · exact Or.inr ⟨k0, List.mem_cons_of_mem _ hk0, hok0, hcg0⟩

theorem filter_ge_split {pre suf : List Key} {K : Key}
    (hpre : ∀ x ∈ pre, x < K) (hsuf : ∀ y ∈ suf, K < y) :
    (pre ++ K :: suf).filter (fun k => decide (K ≤ k)) = K :: suf := by
  rw [List.filter_append]
  have h1 : pre.filter (fun k => decide (K ≤ k)) = [] := by
    rw [List.filter_eq_nil_iff]
    intro a ha
    simpa using not_le_of_lt (hpre a ha)
  have h2 : (K :: suf).filter (fun k => decide (K ≤ k)) = K :: suf := by
    rw [List.filter_cons_of_pos (by simp)]
    have : suf.filter (fun k => decide (K ≤ k)) = suf :=
      List.filter_eq_self.mpr (fun a ha => by simpa using le_of_lt (hsuf a ha))
    rw [this]
  rw [h1, h2]
  rfl

theorem effV2_pairwise {keys : List Key} (tok : Option Key)
    (hp : keys.Pairwise (· < ·)) : (effV2 keys tok).Pairwise (· < ·) := by
  cases tok with
  | none => exact hp
  | some t => exact hp.sublist (List.filter_sublist keys)

theorem effV2_some_of_split {keys : List Key} {tok : Option Key}
    {pre suf : List Key} {K : Key} (hp : keys.Pairwise (· < ·))
    (hsplit : effV2 keys tok = pre ++ K :: suf) :
    effV2 keys (some K) = K :: suf := by
  have heffp := effV2_pairwise tok hp
  rw [hsplit] at heffp
  obtain ⟨hp1, hp2, hmid⟩ := List.pairwise_append.mp heffp
  have hpre : ∀ x ∈ pre, x < K := fun x hx => hmid x hx K (List.mem_cons_self _ _)
  have hsuf : ∀ y ∈ suf, K < y := (List.pairwise_cons.mp hp2).1
  cases tok with
  | none =>
    show keys.filter (fun k => decide (K ≤ k)) = K :: suf
    rw [show keys = pre ++ K :: suf from hsplit]
    exact filter_ge_split hpre hsuf
  | some t =>
    show keys.filter (fun k => decide (K ≤ k)) = K :: suf
    have hKmem : K ∈ keys.filter (fun k => decide (t ≤ k)) := by
      rw [show keys.filter (fun k => decide (t ≤ k)) = pre ++ K :: suf from hsplit]
      exact List.mem_append_right _ (List.mem_cons_self _ _)
    have htK : t ≤ K := by simpa using List.of_mem_filter hKmem
    have habsorb : keys.filter (fun k => decide (K ≤ k))
        = (keys.filter (fun k => decide (t ≤ k))).filter (fun k => decide (K ≤ k)) := by
      rw [List.filter_filter]
      apply List.filter_congr
      intro a _
      by_cases hKa : K ≤ a
      · simp [hKa, htK.trans hKa]
      · simp [hKa]
    rw [habsorb, show keys.filter (fun k => decide (t ≤ k)) = pre ++ K :: suf from hsplit]
    exact filter_ge_split hpre hsuf

/-- Paginated `list_objects_v2` enumerates exactly the canonical listing of
the keys at or after the initial token: each page is a prefix of what
remains, and re-issuing with the returned continuation token resumes
precisely where the previous page stopped. -/
theorem pagesV2_correct {pfx delim : Key} {m : Nat} (hm : 1 ≤ m) :
    ∀ (fuel : Nat) (keys : List Key) (tok : Option Key),
    keys.Pairwise (· < ·) → (effV2 keys tok).length < fuel →
    pagesV2 pfx delim m keys fuel tok = emitAll pfx delim (effV2 keys tok) [] := by
  intro fuel
  induction fuel with
  | zero => intro keys tok _ h; exact absurd h (Nat.not_lt_zero _)
  | succ fuel ih =>
    intro keys tok hp hlen
    have heffp := effV2_pairwise tok hp
    simp only [pagesV2]
    have heq : listObjectsV2Loop pfx delim m tok none keys [] 0
        = listObjectsV2Loop pfx delim m none none (effV2 keys tok) [] 0 := by
      cases tok with
      | none => rfl
      | some t => exact loopV2_eq_eff t keys [] 0
    rw [heq]
    obtain ⟨Hf, Ht⟩ := loopV2_split pfx delim m (effV2 keys tok) [] 0
      (listObjectsV2Loop pfx delim m none none (effV2 keys tok) [] 0) heffp
      (Nat.zero_le m) rfl
    cases htr : (listObjectsV2Loop pfx delim m none none (effV2 keys tok) [] 0).isTruncated with
    | false =>
      simp only [Bool.false_eq_true, if_false]
      exact (Hf htr).2
    | true =>
      obtain ⟨K, pre, suf, cps', hnm, hsplit, hlenle, hcnt, hglue, hcps, hKnot⟩ := Ht htr
      rw [if_pos rfl, hnm]
      have heffpK := heffp
      rw [hsplit] at heffpK
      obtain ⟨hp1, hp2, hmid⟩ := List.pairwise_append.mp heffpK
      have hpre_lt : ∀ x ∈ pre, x < K := fun x hx => hmid x hx K (List.mem_cons_self _ _)
      have hsuf_gt : ∀ y ∈ suf, K < y := (List.pairwise_cons.mp hp2).1
      have heffK : effV2 keys (some K) = K :: suf := effV2_some_of_split hp hsplit
      have hprogress : 1 ≤ pre.length := by
        have hml : (listObjectsV2Loop pfx delim m none none (effV2 keys tok) [] 0).entries.length = m := by
          omega
        omega
      have hfuel : (effV2 keys (some K)).length < fuel := by
        rw [heffK]
        have := hlen
        rw [hsplit, List.length_append, List.length_cons] at this
        simp only [List.length_cons]
        omega
      have hIH := ih keys (some K) hp hfuel
      rw [heffK] at hIH
      have hcongr : emitAll pfx delim (K :: suf) cps' = emitAll pfx delim (K :: suf) [] := by
        apply emitAll_congr
        intro k1 hk1 hok1 g' hg'
        constructor
        · intro hin
          exfalso
          rcases hcps g' hin with habs | ⟨k0, hk0, hok0, hcg0⟩
          · exact absurd habs (List.not_mem_nil g')
          · refine group_no_recurrence hok0 hcg0 hok1 hg'
              (fun hKg => hKnot g' hKg hin) (le_of_lt (hpre_lt k0 hk0)) ?_
            rcases List.mem_cons.mp hk1 with rfl | hk1'
            · exact le_refl k1
            · exact le_of_lt (hsuf_gt k1 hk1')
        · intro hin
          exact absurd hin (List.not_mem_nil g')
      rw [hIH, ← hcongr, ← hglue]

theorem loopV1_cons_skip {pfx delim : Key} {m : Nat} {marker lastKey : Option Key}
    {k : Key} {ks cps : List Key} {c : Nat} (h : skipLeMarker k marker = true) :
    listObjectsLoop pfx delim m marker lastKey (k :: ks) cps c
      = listObjectsLoop pfx delim m marker lastKey ks cps c := by
  simp only [listObjectsLoop]; rw [if_pos h]

theorem loopV1_cons_filtered {pfx delim : Key} {m : Nat} {marker lastKey : Option Key}
    {k : Key} {ks cps : List Key} {c : Nat} (h1 : skipLeMarker k marker = false)
    (hf : pfx ≠ [] ∧ ¬ pfx <+: k) :
    listObjectsLoop pfx delim m marker lastKey (k :: ks) cps c
      = listObjectsLoop pfx delim m marker lastKey ks cps c := by
  simp only [listObjectsLoop]; rw [if_neg (by simp [h1]), if_pos hf]

theorem loopV1_cons_group_skip {pfx delim : Key} {m : Nat} {marker lastKey : Option Key}
    {k g : Key} {ks cps : List Key} {c : Nat} (h1 : skipLeMarker k marker = false)
    (hf : ¬ (pfx ≠ [] ∧ ¬ pfx <+: k)) (hg : computeGroup pfx delim k = some g)
    (hsk : g ∈ cps ∨ markerInGroup g marker = true) :
    listObjectsLoop pfx delim m marker lastKey (k :: ks) cps c
      = listObjectsLoop pfx delim m marker lastKey ks cps c := by
  simp only [listObjectsLoop]
  rw [if_neg (by simp [h1]), if_neg hf, hg]
  exact if_pos hsk

theorem loopV1_cons_cp_break {pfx delim : Key} {m : Nat} {marker lastKey : Option Key}
    {k g : Key} {ks cps : List Key} {c : Nat} (h1 : skipLeMarker k marker = false)
    (hf : ¬ (pfx ≠ [] ∧ ¬ pfx <+: k)) (hg : computeGroup pfx delim k = some g)
    (hsk : ¬ (g ∈ cps ∨ markerInGroup g marker = true))
    (hbrk : m ≤ c + 1 ∧ lastKey ≠ some k) :
    listObjectsLoop pfx delim m marker lastKey (k :: ks) cps c
      = ⟨[.cpEntry g], true, some g⟩ := by
  simp only [listObjectsLoop]
  rw [if_neg (by simp [h1]), if_neg hf, hg]
  show (if g ∈ cps ∨ markerInGroup g marker = true then _
    else if m ≤ c + 1 ∧ lastKey ≠ some k then _ else _) = _
  rw [if_neg hsk, if_pos hbrk]

theorem loopV1_cons_cp_emit {pfx delim : Key} {m : Nat} {marker lastKey : Option Key}
    {k g : Key} {ks cps : List Key} {c : Nat} (h1 : skipLeMarker k marker = false)
    (hf : ¬ (pfx ≠ [] ∧ ¬ pfx <+: k)) (hg : computeGroup pfx delim k = some g)
    (hsk : ¬ (g ∈ cps ∨ markerInGroup g marker = true))
    (hbrk : ¬ (m ≤ c + 1 ∧ lastKey ≠ some k)) :
    listObjectsLoop pfx delim m marker lastKey (k :: ks) cps c
      = ⟨.cpEntry g :: (listObjectsLoop pfx delim m marker lastKey ks (g :: cps) (c + 1)).entries,
         (listObjectsLoop pfx delim m marker lastKey ks (g :: cps) (c + 1)).isTruncated,
         (listObjectsLoop pfx delim m marker lastKey ks (g :: cps) (c + 1)).nextMarker⟩ := by
  simp only [listObjectsLoop]
  rw [if_neg (by simp [h1]), if_neg hf, hg]
  show (if g ∈ cps ∨ markerInGroup g marker = true then _
    else if m ≤ c + 1 ∧ lastKey ≠ some k then _ else _) = _
  rw [if_neg hsk, if_neg hbrk]

theorem loopV1_cons_obj_break {pfx delim : Key} {m : Nat} {marker lastKey : Option Key}
    {k : Key} {ks cps : List Key} {c : Nat} (h1 : skipLeMarker k marker = false)
    (hf : ¬ (pfx ≠ [] ∧ ¬ pfx <+: k)) (hg : computeGroup pfx delim k = none)
    (hbrk : m ≤ c + 1 ∧ lastKey ≠ some k) :
    listObjectsLoop pfx delim m marker lastKey (k :: ks) cps c
      = ⟨[.objEntry k], true, some k⟩ := by
  simp only [listObjectsLoop]
  rw [if_neg (by simp [h1]), if_neg hf, hg]
  show (if m ≤ c + 1 ∧ lastKey ≠ some k then _ else _) = _
  rw [if_pos hbrk]

theorem loopV1_cons_obj_emit {pfx delim : Key} {m : Nat} {marker lastKey : Option Key}
    {k : Key} {ks cps : List Key} {c : Nat} (h1 : skipLeMarker k marker = false)
    (hf : ¬ (pfx ≠ [] ∧ ¬ pfx <+: k)) (hg : computeGroup pfx delim k = none)
    (hbrk : ¬ (m ≤ c + 1 ∧ lastKey ≠ some k)) :
    listObjectsLoop pfx delim m marker lastKey (k :: ks) cps c
      = ⟨.objEntry k :: (listObjectsLoop pfx delim m marker lastKey ks cps (c + 1)).entries,
         (listObjectsLoop pfx delim m marker lastKey ks cps (c + 1)).isTruncated,
         (listObjectsLoop pfx delim m marker lastKey ks cps (c + 1)).nextMarker⟩ := by
  simp only [listObjectsLoop]
  rw [if_neg (by simp [h1]), if_neg hf, hg]
  show (if m ≤ c + 1 ∧ lastKey ≠ some k then _ else _) = _
  rw [if_neg hbrk]

theorem skipLeMarker_none (k : Key) : skipLeMarker k none = false := rfl

/-- A prefix of candidates that are all skipped (prefix filter or
already-emitted common prefix) does not change a `list_objects` page. -/
theorem loopV1_skip_start {pfx delim : Key} {m : Nat} {lastKey : Option Key} :
    ∀ {D W cps : List Key} {c : Nat},
    (∀ b ∈ D, ∃ g' ∈ cps, computeGroup pfx delim b = some g') →
    listObjectsLoop pfx delim m none lastKey (D ++ W) cps c
      = listObjectsLoop pfx delim m none lastKey W cps c := by
  intro D
  induction D with
  | nil => intro W cps c _; rfl
  | cons b D' ih =>
    intro W cps c h
    obtain ⟨g', hg'mem, hg'⟩ := h b (List.mem_cons_self _ _)
    have htail := fun b' hb' => h b' (List.mem_cons_of_mem _ hb')
    show listObjectsLoop pfx delim m none lastKey (b :: (D' ++ W)) cps c = _
    by_cases hf : pfx ≠ [] ∧ ¬ pfx <+: b
    · rw [loopV1_cons_filtered (skipLeMarker_none b) hf]
      exact ih htail
    · rw [loopV1_cons_group_skip (skipLeMarker_none b) hf hg' (Or.inl hg'mem)]
      exact ih htail

/-- A marker produced by a previous page is either an object key (no common
prefix of its own) or a common prefix (its own canonical group). -/
def MarkerGood (pfx delim mk : Key) : Prop :=
  computeGroup pfx delim mk = none ∨ computeGroup pfx delim mk = some mk

/-- Resuming `list_objects` at a well-formed marker is the same as running
the loop from scratch over the keys strictly after the marker, with the
marker itself recorded as an already-emitted common prefix: the
`marker.startswith(common_prefix)` skip fires exactly for the marker's own
group. -/
theorem loopV1_marker_eq {pfx delim : Key} {m : Nat} {lastKey : Option Key}
    {mk : Key} (hMG : MarkerGood pfx delim mk) :
    ∀ (keys cps cps2 : List Key) (c : Nat),
    (∀ x, x ∈ cps2 ↔ (x = mk ∨ x ∈ cps)) →
    listObjectsLoop pfx delim m (some mk) lastKey keys cps c
      = listObjectsLoop pfx delim m none lastKey
          (keys.filter (fun k => decide (mk < k))) cps2 c := by
  intro keys
  induction keys with
  | nil => intro cps cps2 c _; rfl
  | cons k ks ih =>
    intro cps cps2 c hcps2
    by_cases hk : k ≤ mk
    · rw [loopV1_cons_skip (by simp [skipLeMarker, hk]),
        List.filter_cons_of_neg (by simpa using not_lt.mpr hk)]
      exact ih cps cps2 c hcps2
    · have h1s : skipLeMarker k (some mk) = false := by simp [skipLeMarker, hk]
      rw [List.filter_cons_of_pos (by simpa using not_le.mp hk)]
      by_cases hf : pfx ≠ [] ∧ ¬ pfx <+: k
      · rw [loopV1_cons_filtered h1s hf, loopV1_cons_filtered (skipLeMarker_none k) hf]
        exact ih cps cps2 c hcps2
      · cases hg : computeGroup pfx delim k with
        | some g =>
          have hskiff : (g ∈ cps ∨ markerInGroup g (some mk) = true) ↔ g ∈ cps2 := by
            rw [hcps2 g]
            constructor
            · rintro (hin | hmkg)
              · exact Or.inr hin
              · have hpmk : g <+: mk := by simpa [markerInGroup] using hmkg
                have := computeGroup_canonical hg hpmk
                rcases hMG with hnone | hself
                · rw [hnone] at this; cases this
                · rw [hself] at this
                  injection this with h'
                  exact Or.inl h'.symm
            · rintro (rfl | hin)
              · exact Or.inr (by simp [markerInGroup])
              · exact Or.inl hin
          by_cases hsk : g ∈ cps ∨ markerInGroup g (some mk) = true
          · rw [loopV1_cons_group_skip h1s hf hg hsk,
              loopV1_cons_group_skip (skipLeMarker_none k) hf hg (Or.inl (hskiff.mp hsk))]
            exact ih cps cps2 c hcps2
          · have hsk2 : ¬ (g ∈ cps2 ∨ markerInGroup g (none : Option Key) = true) := by
              simp only [markerInGroup]
              rintro (hin | hfalse)
              · exact hsk (hskiff.mpr hin)
              · cases hfalse
            by_cases hbrk : m ≤ c + 1 ∧ lastKey ≠ some k
            · rw [loopV1_cons_cp_break h1s hf hg hsk hbrk,
                loopV1_cons_cp_break (skipLeMarker_none k) hf hg hsk2 hbrk]
            · rw [loopV1_cons_cp_emit h1s hf hg hsk hbrk,
                loopV1_cons_cp_emit (skipLeMarker_none k) hf hg hsk2 hbrk,
                ih (g :: cps) (g :: cps2) (c + 1) ?_]
              intro x
              simp only [List.mem_cons, hcps2 x]
              tauto
        | none =>
          by_cases hbrk : m ≤ c + 1 ∧ lastKey ≠ some k
          · rw [loopV1_cons_obj_break h1s hf hg hbrk,
              loopV1_cons_obj_break (skipLeMarker_none k) hf hg hbrk]
          · rw [loopV1_cons_obj_emit h1s hf hg hbrk,
              loopV1_cons_obj_emit (skipLeMarker_none k) hf hg hbrk, ih cps cps2 (c + 1) hcps2]

/-- Structure of a single `list_objects` (v1) page run without a marker: an
untruncated run emits the canonical listing; a truncated run stops right
after emitting an entry for the break key `kb`, returns as `NextMarker`
either `kb` itself (object entry) or its common prefix, and the canonical
listing resumes after `kb` with the common prefixes accumulated so far. -/
theorem loopV1_split (pfx delim : Key) (m : Nat) (lastKey : Option Key) :
    ∀ (keys cps : List Key) (c : Nat) (r : PageResult),
    keys.Pairwise (· < ·) →
    listObjectsLoop pfx delim m none lastKey keys cps c = r →
    (r.isTruncated = false →
      r.nextMarker = none ∧ r.entries = emitAll pfx delim keys cps) ∧
    (r.isTruncated = true →
      ∃ kb pre suf cps' mk,
        r.nextMarker = some mk ∧
        keys = pre ++ kb :: suf ∧
        (pfx = [] ∨ pfx <+: kb) ∧
        emitAll pfx delim keys cps = r.entries ++ emitAll pfx delim suf cps' ∧
        (∀ g' ∈ cps', g' ∈ cps ∨
          ∃ k0, (k0 ∈ pre ∨ k0 = kb) ∧ (pfx = [] ∨ pfx <+: k0) ∧
            computeGroup pfx delim k0 = some g') ∧
        ((computeGroup pfx delim kb = none ∧ mk = kb) ∨
         (computeGroup pfx delim kb = some mk ∧ mk ∈ cps' ∧ mk ∉ cps))) := by
  intro keys
  induction keys with
  | nil =>
    intro cps c r _ hr
    rw [← hr]
    constructor
    · intro _; exact ⟨rfl, rfl⟩
    · intro ht; cases ht
  | cons k ks ih =>
    intro cps c r hp hr
    have hp' : ks.Pairwise (· < ·) := (List.pairwise_cons.mp hp).2
    by_cases hf : pfx ≠ [] ∧ ¬ pfx <+: k
    · rw [loopV1_cons_filtered (skipLeMarker_none k) hf] at hr
      obtain ⟨Hf, Ht⟩ := ih cps c r hp' hr
      refine ⟨fun h => ?_, fun h => ?_⟩
      · obtain ⟨hnm, hent⟩ := Hf h
        exact ⟨hnm, by rw [hent, emitAll_cons_filtered hf]⟩
      · obtain ⟨kb, pre, suf, cps', mk, hnm, hkeys, hkbok, hglue, hcps, hmspec⟩ := Ht h
        refine ⟨kb, k :: pre, suf, cps', mk, hnm, by rw [hkeys]; rfl, hkbok, ?_, ?_, hmspec⟩
        · rw [emitAll_cons_filtered hf, hglue]
        · intro g' hg'
          rcases hcps g' hg' with hin | ⟨k0, hk0, hok0, hcg0⟩
          · exact Or.inl hin
          · refine Or.inr ⟨k0, ?_, hok0, hcg0⟩
            rcases hk0 with hk0 | hk0
            · exact Or.inl (List.mem_cons_of_mem _ hk0)
            · exact Or.inr hk0
    · have hok : pfx = [] ∨ pfx <+: k := by
        by_cases hpe : pfx = []
        · exact Or.inl hpe
        · exact Or.inr (by push_neg at hf; exact hf hpe)
      cases hg : computeGroup pfx delim k with
      | some g =>
        by_cases hmem : g ∈ cps
        · rw [loopV1_cons_group_skip (skipLeMarker_none k) hf hg (Or.inl hmem)] at hr
          obtain ⟨Hf, Ht⟩ := ih cps c r hp' hr
          refine ⟨fun h => ?_, fun h => ?_⟩
          · obtain ⟨hnm, hent⟩ := Hf h
            exact ⟨hnm, by rw [hent, emitAll_cons_some_mem hf hg hmem]⟩
          · obtain ⟨kb, pre, suf, cps', mk, hnm, hkeys, hkbok, hglue, hcps, hmspec⟩ := Ht h
            refine ⟨kb, k :: pre, suf, cps', mk, hnm, by rw [hkeys]; rfl, hkbok, ?_, ?_, hmspec⟩
            · rw [emitAll_cons_some_mem hf hg hmem, hglue]
            · intro g' hg'
              rcases hcps g' hg' with hin | ⟨k0, hk0, hok0, hcg0⟩
              · exact Or.inl hin
              · refine Or.inr ⟨k0, ?_, hok0, hcg0⟩
                rcases hk0 with hk0 | hk0
                · exact Or.inl (List.mem_cons_of_mem _ hk0)
                · exact Or.inr hk0
        · have hsk : ¬ (g ∈ cps ∨ markerInGroup g (none : Option Key) = true) := by
            simp only [markerInGroup]
            rintro (hin | hfalse)
            · exact hmem hin
            · cases hfalse
          by_cases hbrk : m ≤ c + 1 ∧ lastKey ≠ some k
          · rw [loopV1_cons_cp_break (skipLeMarker_none k) hf hg hsk hbrk] at hr
            rw [← hr]
            constructor
            · intro h; cases h
            · intro _
              refine ⟨k, [], ks, g :: cps, g, rfl, rfl, hok, ?_, ?_, ?_⟩
              · rw [emitAll_cons_some_new hf hg hmem]
                rfl
              · intro g' hg'
                rcases List.mem_cons.mp hg' with rfl | hin
                · exact Or.inr ⟨k, Or.inr rfl, hok, hg⟩
                · exact Or.inl hin
              · exact Or.inr ⟨hg, List.mem_cons_self _ _, hmem⟩
          · rw [loopV1_cons_cp_emit (skipLeMarker_none k) hf hg hsk hbrk] at hr
            obtain ⟨Hf, Ht⟩ := ih (g :: cps) (c + 1)
              (listObjectsLoop pfx delim m none lastKey ks (g :: cps) (c + 1)) hp' rfl
            rw [← hr]
            refine ⟨fun h => ?_, fun h => ?_⟩
            · obtain ⟨hnm, hent⟩ := Hf h
              refine ⟨hnm, ?_⟩
              show SEntry.cpEntry g :: _ = _
              rw [hent, emitAll_cons_some_new hf hg hmem]
            · obtain ⟨kb, pre, suf, cps', mk, hnm, hkeys, hkbok, hglue, hcps, hmspec⟩ := Ht h
              refine ⟨kb, k :: pre, suf, cps', mk, hnm, by rw [hkeys]; rfl, hkbok, ?_, ?_, ?_⟩
              · rw [emitAll_cons_some_new hf hg hmem, hglue]
                rfl
              · intro g' hg'
                rcases hcps g' hg' with hin | ⟨k0, hk0, hok0, hcg0⟩
                · rcases List.mem_cons.mp hin with rfl | hin'
                  · exact Or.inr ⟨k, Or.inl (List.mem_cons_self _ _), hok, hg⟩
                  · exact Or.inl hin'
                · refine Or.inr ⟨k0, ?_, hok0, hcg0⟩
                  rcases hk0 with hk0 | hk0
                  · exact Or.inl (List.mem_cons_of_mem _ hk0)
                  · exact Or.inr hk0
              · rcases hmspec with hobj | ⟨hcg, hmkmem, hmknot⟩
                · exact Or.inl hobj
                · exact Or.inr ⟨hcg, hmkmem, fun hin => hmknot (List.mem_cons_of_mem _ hin)⟩
      | none =>
        by_cases hbrk : m ≤ c + 1 ∧ lastKey ≠ some k
        · rw [loopV1_cons_obj_break (skipLeMarker_none k) hf hg hbrk] at hr
          rw [← hr]
          constructor
          · intro h; cases h
          · intro _
            refine ⟨k, [], ks, cps, k, rfl, rfl, hok, ?_, fun g' hg' => Or.inl hg',
              Or.inl ⟨hg, rfl⟩⟩
            rw [emitAll_cons_none hf hg]
            rfl
        · rw [loopV1_cons_obj_emit (skipLeMarker_none k) hf hg hbrk] at hr
          obtain ⟨Hf, Ht⟩ := ih cps (c + 1)
            (listObjectsLoop pfx delim m none lastKey ks cps (c + 1)) hp' rfl
          rw [← hr]
          refine ⟨fun h => ?_, fun h => ?_⟩
          · obtain ⟨hnm, hent⟩ := Hf h
            refine ⟨hnm, ?_⟩
            show SEntry.objEntry k :: _ = _
            rw [hent, emitAll_cons_none hf hg]
          · obtain ⟨kb, pre, suf, cps', mk, hnm, hkeys, hkbok, hglue, hcps, hmspec⟩ := Ht h
            refine ⟨kb, k :: pre, suf, cps', mk, hnm, by rw [hkeys]; rfl, hkbok, ?_, ?_, hmspec⟩
            · rw [emitAll_cons_none hf hg, hglue]
              rfl
            · intro g' hg'
              rcases hcps g' hg' with hin | ⟨k0, hk0, hok0, hcg0⟩
              · exact Or.inl hin
              · refine Or.inr ⟨k0, ?_, hok0, hcg0⟩
                rcases hk0 with hk0 | hk0
                · exact Or.inl (List.mem_cons_of_mem _ hk0)
                · exact Or.inr hk0

theorem computeGroup_starts_with_pfx {pfx delim k g : Key}
    (h : computeGroup pfx delim k = some g) : pfx <+: g := by
  rw [computeGroup] at h
  split at h
  · cases h
  · rw [Option.map_eq_some'] at h
    obtain ⟨⟨x, r⟩, _, heq⟩ := h
    rw [← heq]
    exact ⟨x ++ delim, by simp⟩

/-- A common prefix emitted before the break key `kb` cannot reappear as the
group of a key after `kb` when it is not `kb`'s own group: `kb` would have
to lie inside it. -/
theorem stale_marker_no_recurrence {pfx delim mk kb k1 : Key}
    (hkb_ne : computeGroup pfx delim kb ≠ some mk)
    (hmkkb : mk ≤ kb) (hkb1 : kb ≤ k1)
    (h1ok : pfx = [] ∨ pfx <+: k1)
    (h1 : computeGroup pfx delim k1 = some mk) : False := by
  have hself : computeGroup pfx delim mk = some mk :=
    computeGroup_canonical h1 List.prefix_rfl
  exact group_no_recurrence (Or.inr (computeGroup_starts_with_pfx hself)) hself
    h1ok h1 hkb_ne hmkkb hkb1

theorem filter_gt_split {pre suf : List Key} {kb : Key}
    (hpre : ∀ x ∈ pre, x < kb) (hsuf : ∀ y ∈ suf, kb < y) :
    (pre ++ kb :: suf).filter (fun x => decide (kb < x)) = suf := by
  rw [List.filter_append]
  have h1 : pre.filter (fun x => decide (kb < x)) = [] := by
    rw [List.filter_eq_nil_iff]
    intro a ha
    simpa using not_lt_of_lt (hpre a ha)
  have h2 : (kb :: suf).filter (fun x => decide (kb < x)) = suf := by
    rw [List.filter_cons_of_neg (by simp)]
    exact List.filter_eq_self.mpr (fun a ha => by simpa using hsuf a ha)
  rw [h1, h2]
  rfl

/-- Splitting a filter of a sorted list at a boundary value. -/
theorem filter_split_le_lt {l : List Key} (hp : l.Pairwise (· < ·))
    (p : Key → Bool) (b : Key) :
    l.filter p = l.filter (fun x => p x && decide (x ≤ b))
      ++ l.filter (fun x => p x && decide (b < x)) := by
  induction l with
  | nil => rfl
  | cons k l' ih =>
    obtain ⟨hklt, hp'⟩ := List.pairwise_cons.mp hp
    have ih' := ih hp'
    by_cases hpk : p k = true
    · by_cases hkb : k ≤ b
      · rw [List.filter_cons_of_pos hpk,
          List.filter_cons_of_pos (by simp [hpk, hkb]),
          List.filter_cons_of_neg (by simp [not_lt_of_le hkb]), ih']
        rfl
      · have hbk : b < k := not_le.mp hkb
        have hnil : l'.filter (fun x => p x && decide (x ≤ b)) = [] := by
          rw [List.filter_eq_nil_iff]
          intro a ha
          simp [not_le_of_lt (hbk.trans (hklt a ha))]
        have hsame : l'.filter (fun x => p x && decide (b < x)) = l'.filter p := by
          apply List.filter_congr
          intro a ha
          simp [hbk.trans (hklt a ha)]
        rw [List.filter_cons_of_pos hpk,
          List.filter_cons_of_neg (by simp [hkb]),
          List.filter_cons_of_pos (by simp [hpk, hbk]), hnil, hsame]
        rfl
    · have hpk' : p k = false := by simpa using hpk
      rw [List.filter_cons_of_neg (by simp [hpk']),
        List.filter_cons_of_neg (by simp [hpk']),
        List.filter_cons_of_neg (by simp [hpk']), ih']

/-- The effective key list a `list_objects` page enumerates once the skipped
candidates are folded away: all keys, or the keys strictly after a bound. -/
def effV1 (keys : List Key) : Option Key → List Key
  | none => keys
  | some b => keys.filter (fun k => decide (b < k))

theorem effV1_pairwise {keys : List Key} (bound : Option Key)
    (hp : keys.Pairwise (· < ·)) : (effV1 keys bound).Pairwise (· < ·) := by
  cases bound with
  | none => exact hp
  | some b => exact hp.sublist (List.filter_sublist keys)

theorem effV1_next {keys : List Key} {bound : Option Key}
    {pre suf : List Key} {kb : Key} (hp : keys.Pairwise (· < ·))
    (hsplit : effV1 keys bound = pre ++ kb :: suf) :
    keys.filter (fun x => decide (kb < x)) = suf := by
  have heffp := effV1_pairwise bound hp
  rw [hsplit] at heffp
  obtain ⟨hp1, hp2, hmid⟩ := List.pairwise_append.mp heffp
  have hpre : ∀ x ∈ pre, x < kb := fun x hx => hmid x hx kb (List.mem_cons_self _ _)
  have hsuf : ∀ y ∈ suf, kb < y := (List.pairwise_cons.mp hp2).1
  cases bound with
  | none =>
    rw [show keys = pre ++ kb :: suf from hsplit]
    exact filter_gt_split hpre hsuf
  | some b =>
    have hkbmem : kb ∈ keys.filter (fun k => decide (b < k)) := by
      rw [show keys.filter (fun k => decide (b < k)) = pre ++ kb :: suf from hsplit]
      exact List.mem_append_right _ (List.mem_cons_self _ _)
    have hbkb : b < kb := by simpa using List.of_mem_filter hkbmem
    have habsorb : keys.filter (fun x => decide (kb < x))
        = (keys.filter (fun k => decide (b < k))).filter (fun x => decide (kb < x)) := by
      rw [List.filter_filter]
      apply List.filter_congr
      intro a _
      by_cases hka : kb < a
      · simp [hka, hbkb.trans hka]
      · simp [hka]
    rw [habsorb, show keys.filter (fun k => decide (b < k)) = pre ++ kb :: suf from hsplit]
    exact filter_gt_split hpre hsuf

theorem effV1_next_cp {keys : List Key} {bound : Option Key}
    {pre suf : List Key} {kb g : Key} (hp : keys.Pairwise (· < ·))
    (hsplit : effV1 keys bound = pre ++ kb :: suf) (hgkb : g ≤ kb) :
    keys.filter (fun x => decide (g < x))
      = keys.filter (fun x => decide (g < x) && decide (x ≤ kb)) ++ suf := by
  rw [filter_split_le_lt hp (fun x => decide (g < x)) kb]
  congr 1
  have hsame : keys.filter (fun x => decide (g < x) && decide (kb < x))
      = keys.filter (fun x => decide (kb < x)) := by
    apply List.filter_congr
    intro a _
    by_cases hka : kb < a
    · simp [hka, lt_of_le_of_lt hgkb hka]
    · simp [hka]
  rw [hsame, effV1_next hp hsplit]

/-- Every key strictly between a common prefix `g` and a key `kb` whose
group is `g` has group `g` as well. -/
theorem mem_between_group {pfx delim kb g : Key}
    (hkbok : pfx = [] ∨ pfx <+: kb)
    (hcg : computeGroup pfx delim kb = some g) :
    ∀ x, g < x → x ≤ kb → computeGroup pfx delim x = some g := by
  intro x h1 h2
  have hgkb : g <+: kb := computeGroup_isPfx hkbok hcg
  have hgx : g <+: x := isPfx_convex List.prefix_rfl hgkb (le_of_lt h1) h2
  exact computeGroup_canonical hcg hgx

/-- Paginated `list_objects` (v1): under the page-to-page invariant — the
marker is either absent (first page) or the previous page's break entry,
and the effective enumeration starts strictly after the previous break
key — every page continues the canonical listing exactly where the
previous one stopped. -/
theorem pagesV1_aux {pfx delim : Key} {m : Nat} {keys : List Key}
    (hp : keys.Pairwise (· < ·)) :
    ∀ (fuel : Nat) (bound tok : Option Key) (cps0 : List Key),
    (effV1 keys bound).length < fuel →
    listObjectsLoop pfx delim m tok keys.getLast? keys [] 0
      = listObjectsLoop pfx delim m none keys.getLast? (effV1 keys bound) cps0 0 →
    ((tok = none ∧ cps0 = []) ∨
     (∃ mk, tok = some mk ∧ cps0 = [mk] ∧ MarkerGood pfx delim mk ∧
        ∀ w ∈ effV1 keys bound, mk < w)) →
    pagesV1 pfx delim m keys fuel tok = emitAll pfx delim (effV1 keys bound) cps0 := by
  intro fuel
  induction fuel with
  | zero => intro bound tok cps0 h _ _; exact absurd h (Nat.not_lt_zero _)
  | succ fuel ih =>
    intro bound tok cps0 hlen hred hspec
    have heffp := effV1_pairwise bound hp
    simp only [pagesV1]
    rw [hred]
    obtain ⟨Hf, Ht⟩ := loopV1_split pfx delim m keys.getLast? (effV1 keys bound) cps0 0
      (listObjectsLoop pfx delim m none keys.getLast? (effV1 keys bound) cps0 0) heffp rfl
    cases htr : (listObjectsLoop pfx delim m none keys.getLast?
        (effV1 keys bound) cps0 0).isTruncated with
    | false =>
      simp only [Bool.false_eq_true, if_false]
      exact (Hf htr).2
    | true =>
      obtain ⟨kb, pre, suf, cps', mk', hnm, hsplit, hkbok, hglue, hcps, hmspec⟩ := Ht htr
      rw [if_pos rfl, hnm]
      have heffpS := heffp
      rw [hsplit] at heffpS
      obtain ⟨hp1, hp2, hmid⟩ := List.pairwise_append.mp heffpS
      have hpre_lt : ∀ x ∈ pre, x < kb := fun x hx => hmid x hx kb (List.mem_cons_self _ _)
      have hsuf_gt : ∀ y ∈ suf, kb < y := (List.pairwise_cons.mp hp2).1
      have heffkb : effV1 keys (some kb) = suf := effV1_next hp hsplit
      have hfuel' : (effV1 keys (some kb)).length < fuel := by
        rw [heffkb]
        have := hlen
        rw [hsplit, List.length_append, List.length_cons] at this
        omega
      have hmk'_le_kb : mk' ≤ kb := by
        rcases hmspec with ⟨_, heq⟩ | ⟨hcg, _, _⟩
        · rw [heq]
        · exact le_of_isPfx (computeGroup_isPfx hkbok hcg)
      have hstale : ∀ g', g' ∈ cps' → g' ≠ mk' →
          ∀ k1 ∈ suf, (pfx = [] ∨ pfx <+: k1) → computeGroup pfx delim k1 ≠ some g' := by
        intro g' hg' hne k1 hk1 h1ok h1
        have hkb_ne : computeGroup pfx delim kb ≠ some g' := by
          rcases hmspec with ⟨hnone, _⟩ | ⟨hcg, _, _⟩
          · rw [hnone]; intro hcontra; cases hcontra
          · rw [hcg]; intro hcontra
            injection hcontra with h'
            exact hne h'.symm
        have hkb1 : kb ≤ k1 := le_of_lt (hsuf_gt k1 hk1)
        rcases hcps g' hg' with hin0 | ⟨k0, hk0, hok0, hcg0⟩
        · rcases hspec with ⟨_, hnil⟩ | ⟨mk, _, hsing, _, hmklt⟩
          · rw [hnil] at hin0
            exact absurd hin0 (List.not_mem_nil g')
          · rw [hsing] at hin0
            obtain rfl : g' = mk := List.mem_singleton.mp hin0
            have hkbmem : kb ∈ effV1 keys bound := by
              rw [hsplit]
              exact List.mem_append_right _ (List.mem_cons_self _ _)
            exact stale_marker_no_recurrence hkb_ne
              (le_of_lt (hmklt kb hkbmem)) hkb1 h1ok h1
        · have h0K : k0 ≤ kb := by
            rcases hk0 with hk0 | heq0
            · exact le_of_lt (hpre_lt k0 hk0)
            · rw [heq0]
          exact group_no_recurrence hok0 hcg0 h1ok h1 hkb_ne h0K hkb1
      rcases hmspec with ⟨hcgkb, rfl⟩ | ⟨hcgkb, hmk'mem, hmk'not⟩
      · -- object-entry break: the next marker is the break key itself
        have hred' : listObjectsLoop pfx delim m (some mk') keys.getLast? keys [] 0
            = listObjectsLoop pfx delim m none keys.getLast?
                (effV1 keys (some mk')) [mk'] 0 := by
          rw [loopV1_marker_eq (Or.inl hcgkb) keys [] [mk'] 0 (fun x => by simp)]
          rfl
        have hspec' : ((some mk' : Option Key) = none ∧ ([mk'] : List Key) = []) ∨
            (∃ mk, (some mk' : Option Key) = some mk ∧ ([mk'] : List Key) = [mk] ∧
              MarkerGood pfx delim mk ∧ ∀ w ∈ effV1 keys (some mk'), mk < w) := by
          refine Or.inr ⟨mk', rfl, rfl, Or.inl hcgkb, fun w hw => ?_⟩
          rw [heffkb] at hw
          exact hsuf_gt w hw
        have hIH := ih (some mk') (some mk') [mk'] hfuel' hred' hspec'
        rw [heffkb] at hIH
        have hcongr : emitAll pfx delim suf cps' = emitAll pfx delim suf [mk'] := by
          apply emitAll_congr
          intro k1 hk1 hok1 g' hg'
          constructor
          · intro hin
            by_cases hgm : g' = mk'
            · simp [hgm]
            · exact absurd hg' (hstale g' hin hgm k1 hk1 hok1)
          · intro hin
            have hgm : g' = mk' := List.mem_singleton.mp hin
            exfalso
            have hself : computeGroup pfx delim mk' = some mk' :=
              computeGroup_canonical (hgm ▸ hg') List.prefix_rfl
            rw [hcgkb] at hself
            cases hself
        rw [hIH, ← hcongr, ← hglue]
      · -- common-prefix break: the next marker is the break key's group
        have hMG' : MarkerGood pfx delim mk' :=
          Or.inr (computeGroup_canonical hcgkb List.prefix_rfl)
        have hDm := effV1_next_cp hp hsplit hmk'_le_kb
        have hDmskip : ∀ b ∈ keys.filter
            (fun x => decide (mk' < x) && decide (x ≤ kb)),
            ∃ g' ∈ ([mk'] : List Key), computeGroup pfx delim b = some g' := by
          intro b hb
          have hb' := List.of_mem_filter hb
          have hb1 : mk' < b ∧ b ≤ kb := by simpa using hb'
          exact ⟨mk', List.mem_singleton.mpr rfl,
            mem_between_group hkbok hcgkb b hb1.1 hb1.2⟩
        have hred' : listObjectsLoop pfx delim m (some mk') keys.getLast? keys [] 0
            = listObjectsLoop pfx delim m none keys.getLast?
                (effV1 keys (some kb)) [mk'] 0 := by
          rw [loopV1_marker_eq hMG' keys [] [mk'] 0 (fun x => by simp)]
          show listObjectsLoop pfx delim m none keys.getLast?
            (keys.filter (fun k => decide (mk' < k))) [mk'] 0 = _
          rw [hDm, loopV1_skip_start hDmskip, heffkb]
        have hspec' : ((some mk' : Option Key) = none ∧ ([mk'] : List Key) = []) ∨
            (∃ mk, (some mk' : Option Key) = some mk ∧ ([mk'] : List Key) = [mk] ∧
              MarkerGood pfx delim mk ∧ ∀ w ∈ effV1 keys (some kb), mk < w) := by
          refine Or.inr ⟨mk', rfl, rfl, hMG', fun w hw => ?_⟩
          rw [heffkb] at hw
          exact lt_of_le_of_lt hmk'_le_kb (hsuf_gt w hw)
        have hIH := ih (some kb) (some mk') [mk'] hfuel' hred' hspec'
        rw [heffkb] at hIH
        have hcongr : emitAll pfx delim suf cps' = emitAll pfx delim suf [mk'] := by
          apply emitAll_congr
          intro k1 hk1 hok1 g' hg'
          constructor
          · intro hin
            by_cases hgm : g' = mk'
            · simp [hgm]
            · exact absurd hg' (hstale g' hin hgm k1 hk1 hok1)
          · intro hin
            obtain rfl : g' = mk' := List.mem_singleton.mp hin
            exact hmk'mem
        rw [hIH, ← hcongr, ← hglue]

theorem one_le_effMaxKeys (maxKeys0 : Option Nat) : 1 ≤ effMaxKeys maxKeys0 := by
  cases maxKeys0 with
  | none => exact Nat.le_refl 1 |>.trans (by simp [effMaxKeys])
  | some v =>
    simp only [effMaxKeys]
    by_cases hv : v = 0
    · simp [hv]
    · rw [if_neg hv]
      omega

/-- C4: for every bucket state (sorted current keys) and every choice of
prefix, delimiter and max-keys, repeating a paginated `ListObjects` or
`ListObjectsV2` by re-issuing the request with the returned `NextMarker` /
`NextContinuationToken` yields exactly the canonical listing — every
matching key and common prefix is emitted exactly once across the pages,
with no duplicates and no omissions (the canonical listing is duplicate
free). -/
theorem C4_listing_pagination_exact (keys : List Key) (pfx delim : Key)
    (maxKeys0 : Option Nat) (hp : keys.Pairwise (· < ·)) :
    pagesV1 pfx delim (effMaxKeys maxKeys0) keys (keys.length + 1) none
      = emitAll pfx delim keys [] ∧
    pagesV2 pfx delim (effMaxKeys maxKeys0) keys (keys.length + 1) none
      = emitAll pfx delim keys [] ∧
    (emitAll pfx delim keys []).Nodup := by
  refine ⟨?_, ?_, emitAll_nodup hp⟩
  · exact pagesV1_aux hp (keys.length + 1) none none []
      (Nat.lt_succ_self _) rfl (Or.inl ⟨rfl, rfl⟩)
  · exact pagesV2_correct (one_le_effMaxKeys maxKeys0)
      (keys.length + 1) keys none hp (Nat.lt_succ_self _)

theorem C4_listing_pagination_exact_witness :
    ([['a', '/', 'x'], ['a', '/', 'y'], ['b']] : List Key).Pairwise (· < ·) ∧
    (pagesV1 [] ['/'] (effMaxKeys (some 1))
        [['a', '/', 'x'], ['a', '/', 'y'], ['b']] 4 none
      = emitAll [] ['/'] [['a', '/', 'x'], ['a', '/', 'y'], ['b']] [] ∧
    pagesV2 [] ['/'] (effMaxKeys (some 1))
        [['a', '/', 'x'], ['a', '/', 'y'], ['b']] 4 none
      = emitAll [] ['/'] [['a', '/', 'x'], ['a', '/', 'y'], ['b']] [] ∧
    (emitAll [] ['/'] [['a', '/', 'x'], ['a', '/', 'y'], ['b']] []).Nodup) :=
  ⟨by decide,
    C4_listing_pagination_exact [['a', '/', 'x'], ['a', '/', 'y'], ['b']]
      [] ['/'] (some 1) (by decide)⟩

/-- C5 fails on the code: `max_keys = max_keys or 1000` turns an explicit
`max_keys = 0` into the default 1000, so a bucket with one object returns a
non-empty page instead of the empty page the spec requires.  Evaluated at
the failing input: one key `"a"`, `max_keys = 0`. -/
theorem C5_max_keys_zero_divergence :
    effMaxKeys (some 0) = 1000 ∧
    (list_objects [['a']] none none none (some 0)).contents = [['a']] ∧
    (list_objects [['a']] none none none (some 0)).isTruncated = false ∧
    list_objects_v2 [['a']] none none (some 0) none none
      = .ok ⟨[['a']], [], false, none, 1, 1000⟩ := by
  refine ⟨rfl, ?_, ?_, ?_⟩ <;> rfl

/-- C9: `list_objects_v2` with a present-but-empty continuation token always
raises `InvalidArgument` and enumerates nothing, while an absent
continuation token succeeds and lists from the beginning: the emitted page
is an initial segment of the canonical listing of all keys. -/
theorem C9_empty_continuation_token (keys : List Key) (pfx delim : Option Key)
    (maxKeys0 : Option Nat) (sa : Option Key) (hp : keys.Pairwise (· < ·)) :
    list_objects_v2 keys pfx delim maxKeys0 (some []) sa = .error .invalidArgument ∧
    ∃ out, list_objects_v2 keys pfx delim maxKeys0 none none = .ok out ∧
      (listObjectsV2Loop (pfx.getD []) (delim.getD []) (effMaxKeys maxKeys0)
          none none keys [] 0).entries
        <+: emitAll (pfx.getD []) (delim.getD []) keys [] := by
  constructor
  · rw [list_objects_v2, if_pos rfl]
  · refine ⟨_, by rw [list_objects_v2, if_neg (by simp)], ?_⟩
    obtain ⟨Hf, Ht⟩ := loopV2_split (pfx.getD []) (delim.getD []) (effMaxKeys maxKeys0)
      keys [] 0 (listObjectsV2Loop (pfx.getD []) (delim.getD []) (effMaxKeys maxKeys0)
        none none keys [] 0) hp (Nat.zero_le _) rfl
    cases htr : (listObjectsV2Loop (pfx.getD []) (delim.getD []) (effMaxKeys maxKeys0)
        none none keys [] 0).isTruncated with
    | false =>
      rw [(Hf htr).2]
    | true =>
      obtain ⟨K, pre, suf, cps', _, _, _, _, hglue, _, _⟩ := Ht htr
      exact ⟨emitAll (pfx.getD []) (delim.getD []) (K :: suf) cps', hglue.symm⟩

theorem C9_empty_continuation_token_witness :
    list_objects_v2 [['a']] none none none (some []) none = .error .invalidArgument ∧
    ∃ out, list_objects_v2 [['a']] none none none none none = .ok out ∧
      (listObjectsV2Loop ((none : Option Key).getD []) ((none : Option Key).getD [])
          (effMaxKeys none) none none [['a']] [] 0).entries
        <+: emitAll ((none : Option Key).getD []) ((none : Option Key).getD []) [['a']] [] :=
  C9_empty_continuation_token [['a']] none none none none (by decide)
